import Mathlib

/-!
# HostsManager: the merge engine of `main.go`

A shallow embedding of the string-processing core of `main` (lines 153-245 of
`src/main.go`): parsing of downloaded host files, the `uniqueHosts` map, the
removal of a previously written managed block from the local hosts file, and
the text written to the new hosts file.

Go strings are byte sequences; they are modelled as lists of bytes.  Go `int`
values are modelled as `Int` (no length here comes near 2^63).  The Go library
functions used by `main` (`strings.*`, `unicode.IsSpace`, `utf8.*`) are
modelled in namespaces of the same name.
-/

namespace HostsManager

/-- One byte of a Go string. -/
abbrev Byte := Fin 256

/-- Go strings: immutable byte sequences. -/
abbrev GoString := List Byte

/-- Bytes of an ASCII string literal (every code point below 128 is encoded by
the byte of the same value). -/
def ascii (s : String) : GoString := s.toList.map (fun c => Fin.ofNat c.toNat)

/-! ## Go library: `unicode`, `unicode/utf8` -/

namespace unicode

/-- Go `unicode.IsSpace`: the Latin-1 spaces `\t \n \v \f \r ' ' U+0085 U+00A0`,
and above Latin-1 the `White_Space` table. -/
def IsSpace (r : Nat) : Bool :=
  if r ≤ 0xFF then
    r == 0x09 || r == 0x0A || r == 0x0B || r == 0x0C || r == 0x0D || r == 0x20
      || r == 0x85 || r == 0xA0
  else
    r == 0x1680 || (decide (0x2000 ≤ r) && decide (r ≤ 0x200A)) || r == 0x2028
      || r == 0x2029 || r == 0x202F || r == 0x205F || r == 0x3000

end unicode

namespace utf8

/-- Go `utf8.RuneError`. -/
def RuneError : Nat := 0xFFFD

/-- Go `utf8.RuneSelf`: bytes below it are single-byte runes. -/
def RuneSelf : Nat := 0x80

/-- Go `utf8.RuneStart`: the byte is not a continuation byte `10xxxxxx`. -/
def RuneStart (b : Byte) : Bool := decide (b.val < 0x80) || decide (0xC0 ≤ b.val)

/-- Go's tables `first` and `acceptRanges`: for a leading byte of a multi-byte
encoding, the size of the encoding and the accepted range of the second byte;
`none` for ASCII and for invalid leading bytes. -/
def leading (s0 : Nat) : Option (Nat × Nat × Nat) :=
  if 0xC2 ≤ s0 ∧ s0 ≤ 0xDF then some (2, 0x80, 0xBF)
  else if s0 = 0xE0 then some (3, 0xA0, 0xBF)
  else if (0xE1 ≤ s0 ∧ s0 ≤ 0xEC) ∨ s0 = 0xEE ∨ s0 = 0xEF then some (3, 0x80, 0xBF)
  else if s0 = 0xED then some (3, 0x80, 0x9F)
  else if s0 = 0xF0 then some (4, 0x90, 0xBF)
  else if 0xF1 ≤ s0 ∧ s0 ≤ 0xF3 then some (4, 0x80, 0xBF)
  else if s0 = 0xF4 then some (4, 0x80, 0x8F)
  else none

/-- Go `utf8.DecodeRuneInString`: the first rune of `s` and its width in bytes;
`(RuneError, 0)` for the empty string and `(RuneError, 1)` for an invalid
encoding. -/
def DecodeRuneInString (s : GoString) : Nat × Nat :=
  match s with
  | [] => (RuneError, 0)
  | s0 :: t =>
    if s0.val < RuneSelf then (s0.val, 1)
    else
      match leading s0.val with
      | none => (RuneError, 1)
      | some (sz, lo, hi) =>
        if s.length < sz then (RuneError, 1)
        else
          match t with
          | [] => (RuneError, 1)
          | s1 :: t1 =>
            if s1.val < lo ∨ hi < s1.val then (RuneError, 1)
            else if sz ≤ 2 then (s0.val % 32 * 64 + s1.val % 64, 2)
            else
              match t1 with
              | [] => (RuneError, 1)
              | s2 :: t2 =>
                if s2.val < 0x80 ∨ 0xBF < s2.val then (RuneError, 1)
                else if sz ≤ 3 then
                  (s0.val % 16 * 4096 + s1.val % 64 * 64 + s2.val % 64, 3)
                else
                  match t2 with
                  | [] => (RuneError, 1)
                  | s3 :: _ =>
                    if s3.val < 0x80 ∨ 0xBF < s3.val then (RuneError, 1)
                    else
                      (s0.val % 8 * 262144 + s1.val % 64 * 4096 + s2.val % 64 * 64
                        + s3.val % 64, 4)

/-- The backward scan of `utf8.DecodeLastRuneInString` for a rune start.  The
argument lists the bytes before the last one, nearest first; the loop tests
`s[end-2]`, `s[end-3]`, `s[end-4]` (at most `UTFMax` bytes from the end) and
stops at the first rune start.  The result is `end - 1 - start` for the value
of `start` after the loop and the clamp `if start < 0 { start = 0 }`. -/
def scanBack : Nat → GoString → Nat
  | _, [] => 0
  | 0, _ :: _ => 1
  | fuel + 1, b :: r => if RuneStart b then 1 else 1 + scanBack fuel r

/-- Go `utf8.DecodeLastRuneInString`: the last rune of `s` and its width;
`(RuneError, 0)` for the empty string, `(RuneError, 1)` when the bytes at the
end are not a valid encoding. -/
def DecodeLastRuneInString (s : GoString) : Nat × Nat :=
  match s.reverse with
  | [] => (RuneError, 0)
  | b0 :: rest =>
    if b0.val < RuneSelf then (b0.val, 1)
    else
      let d := scanBack 3 rest
      let rs := DecodeRuneInString (b0 :: rest.take d).reverse
      if rs.2 ≠ d + 1 then (RuneError, 1) else rs

end utf8

/-! ## Go library: `strings` -/

namespace strings

/-- First index at which `substr` occurs in `s`, if any. -/
def IndexOpt (s substr : GoString) : Option Nat :=
  match s with
  | [] => if substr.isPrefixOf [] then some 0 else none
  | c :: t =>
    if substr.isPrefixOf (c :: t) then some 0
    else (IndexOpt t substr).map (· + 1)

/-- Go `strings.Index`: index of the first instance of `substr` in `s`, or -1. -/
def Index (s substr : GoString) : Int :=
  match IndexOpt s substr with
  | some i => (i : Int)
  | none => -1

/-- Last index at which `substr` occurs in `s`, if any. -/
def LastIndexOpt (s substr : GoString) : Option Nat :=
  match s with
  | [] => if substr.isPrefixOf [] then some 0 else none
  | c :: t =>
    match LastIndexOpt t substr with
    | some i => some (i + 1)
    | none => if substr.isPrefixOf (c :: t) then some 0 else none

/-- Go `strings.LastIndex`: index of the last instance of `substr` in `s`, or -1. -/
def LastIndex (s substr : GoString) : Int :=
  match LastIndexOpt s substr with
  | some i => (i : Int)
  | none => -1

/-- Go `strings.Contains`: `Index(s, substr) >= 0`. -/
def Contains (s substr : GoString) : Bool := decide (Index s substr ≥ 0)

/-- Go `strings.Replace(s, old, new, n)` for a non-empty `old` and `n ≥ 0`: the
first `n` non-overlapping instances of `old` replaced by `new`, found from left
to right with `Index`. -/
def Replace (s old new : GoString) : Nat → GoString
  | 0 => s
  | n + 1 =>
    match IndexOpt s old with
    | none => s
    | some j => s.take j ++ new ++ Replace (s.drop (j + old.length)) old new n

/-- The loop of Go's `strings.Split` (`genSplit`) for a non-empty separator. -/
def SplitAux (sep : GoString) : Nat → GoString → List GoString
  | 0, s => [s]
  | fuel + 1, s =>
    match IndexOpt s sep with
    | none => [s]
    | some m => s.take m :: SplitAux sep fuel (s.drop (m + sep.length))

/-- Go `strings.Split(s, sep)` for a non-empty `sep`: the substrings between
the instances of `sep` (there are at most `len(s)` instances). -/
def Split (s sep : GoString) : List GoString := SplitAux sep s.length s

/-- Leading white space removed (`strings.TrimLeftFunc(s, unicode.IsSpace)`);
the first argument bounds the number of runes. -/
def TrimLeftSpace : Nat → GoString → GoString
  | 0, s => s
  | fuel + 1, s =>
    if s ≠ [] ∧ unicode.IsSpace (utf8.DecodeRuneInString s).1 then
      TrimLeftSpace fuel (s.drop (utf8.DecodeRuneInString s).2)
    else s

/-- Trailing white space removed (`strings.TrimRightFunc(s, unicode.IsSpace)`);
the first argument bounds the number of runes. -/
def TrimRightSpace : Nat → GoString → GoString
  | 0, s => s
  | fuel + 1, s =>
    if s ≠ [] ∧ unicode.IsSpace (utf8.DecodeLastRuneInString s).1 then
      TrimRightSpace fuel (s.take (s.length - (utf8.DecodeLastRuneInString s).2))
    else s

/-- Go `strings.TrimSpace`: all leading and trailing white space removed, as
defined by Unicode.  (Go's code first skips ASCII spaces byte by byte and, at
the first non-ASCII byte, goes on with `TrimFunc(s, unicode.IsSpace)`; an ASCII
byte is a rune of width one, so the result is that of `TrimFunc` throughout.) -/
def TrimSpace (s : GoString) : GoString :=
  TrimRightSpace s.length (TrimLeftSpace s.length s)

/-- Whether a string begins with white space, as `TrimSpace` sees it. -/
def beginsWithSpace (s : GoString) : Bool := unicode.IsSpace (utf8.DecodeRuneInString s).1

/-- Whether a string ends with white space, as `TrimSpace` sees it. -/
def endsWithSpace (s : GoString) : Bool := unicode.IsSpace (utf8.DecodeLastRuneInString s).1

end strings

/-! ## `main.go` -/

/-- Marker line opening the managed block (`main.go:18`). -/
def startManagedHosts : GoString := ascii "# DO NOT MODIFY MANUALLY. Managed hosts start.\n"

/-- Marker line closing the managed block (`main.go:19`). -/
def endManagedHosts : GoString := ascii "# DO NOT MODIFY MANUALLY. Managed hosts end.\n"

/-- Keys of the map `ignoreListInDownloadedFiles` (`main.go:23-38`). -/
def ignoreListInDownloadedFiles : List GoString :=
  [ascii "localhost", ascii "localhost.localdomain", ascii "local", ascii "broadcasthost",
   ascii "ip6-localhost", ascii "ip6-loopback", ascii "ip6-localnet", ascii "ip6-mcastprefix",
   ascii "ip6-allnodes", ascii "ip6-allrouters", ascii "ip6-allhosts", ascii "0.0.0.0",
   ascii "::", ascii "::0"]

/-- The `entry` of `main.go:159-160`: the text before the first `#`, trimmed. -/
def entry (originalEntry : GoString) : GoString :=
  strings.TrimSpace ((strings.Split originalEntry (ascii "#")).headD [])

/-- The loop of `main.go:165-169`, `i` running from `n - 1` down to `0`: every
white-space byte overwrites `host` with the text after it. -/
def hostLoop (entry : GoString) : Nat → GoString → GoString
  | 0, host => host
  | i + 1, host =>
    hostLoop entry i
      (if unicode.IsSpace (entry.getD i 0).val then entry.drop (i + 1) else host)

/-- The `host` of `main.go:164-169`. -/
def host (entry : GoString) : GoString := hostLoop entry entry.length []

/-- The text after the first white-space byte of a string, if there is one.
The loop of `main.go:165-169` leaves this text in `host` (`host_eq` below). -/
def afterFirstSpace : GoString → Option GoString
  | [] => none
  | b :: t => if unicode.IsSpace b.val then some t else afterFirstSpace t

/-- The text of a string from its first white-space rune on, empty when it has
none; white space is read as `strings.TrimSpace` reads it, on the runes decoded
from the bytes.  The first argument bounds the number of runes. -/
def fromFirstSpace : Nat → GoString → GoString
  | 0, s => s
  | fuel + 1, s =>
    if s = [] then []
    else if unicode.IsSpace (utf8.DecodeRuneInString s).1 then s
    else fromFirstSpace fuel (s.drop (utf8.DecodeRuneInString s).2)

/-- The host field by the rule of the specification (section 4.1), to be
compared with `host`: everything after the first white-space run of the entry,
trimmed.  White space is the white space of `strings.TrimSpace` throughout:
runes of Unicode's `White_Space`, decoded from the bytes. -/
def hostReference (entry : GoString) : GoString :=
  strings.TrimSpace
    (strings.TrimLeftSpace (fromFirstSpace entry.length entry).length
      (fromFirstSpace entry.length entry))

/-- One iteration of the loop over the lines of a downloaded file
(`main.go:158-174`): `none` when the line is skipped by `continue`, otherwise
the string appended to `hosts`. -/
def processEntry (originalEntry : GoString) : Option GoString :=
  if (entry originalEntry).length = 0 then none
  else some (host (entry originalEntry))

/-- Whether `main.go:170-172` prints "Error parsing entry" for the line. -/
def parseErrorPrinted (originalEntry : GoString) : Bool :=
  decide ((entry originalEntry).length ≠ 0) && decide ((host (entry originalEntry)).length = 0)

/-- What the loop of `main.go:158-174` guarantees of every string it appends to
`hosts`: no `#`, no newline, and no white space at the end, also when the
string stands after other text ending in an ASCII byte. -/
def ParsedHost (h : GoString) : Prop :=
  (35 : Byte) ∉ h ∧ (10 : Byte) ∉ h ∧
    (h ≠ [] → ∀ p : GoString, (∀ q, p.getLast? = some q → q.val < 0x80) →
      strings.endsWithSpace (p ++ h) = false)

/-- The strings appended to `hosts` for one downloaded file (`main.go:157-174`). -/
def processHostFile (rawHostFile : GoString) : List GoString :=
  (strings.Split rawHostFile (ascii "\n")).filterMap processEntry

/-- The slice `hosts` after the loop of `main.go:155-175`; the argument lists
the downloaded texts in the order in which the map `rawHostFiles` is ranged. -/
def hosts (rawHostFiles : List GoString) : List GoString :=
  rawHostFiles.flatMap processHostFile

/-- The assignment `m[k] = true` on a map represented by the list of its keys
(without repetition, in order of first insertion). -/
def mapSet (m : List GoString) (k : GoString) : List GoString :=
  if k ∈ m then m else m ++ [k]

/-- The keys of the map `uniqueHosts` after the loop of `main.go:179-184`. -/
def uniqueHosts (hosts : List GoString) : List GoString :=
  hosts.foldl (fun m h => if h ∈ ignoreListInDownloadedFiles then m else mapSet m h) []

/-- Orders in which `range` may visit a map with keys `m`: each key once, in an
order Go leaves unspecified. -/
def RangeOrder (m order : List GoString) : Prop := order.Perm m

/-- Ways in which the removal of the managed block can stop the program. -/
inductive Failure
  /-- `os.Exit(1)` at `main.go:200-201`. -/
  | noStartIndex
  /-- `os.Exit(1)` at `main.go:205-206`. -/
  | noEndIndex
  /-- Run-time panic: slice bounds out of range. -/
  | sliceBounds
  deriving DecidableEq, Repr

/-- Go slice expression `s[lo:hi]` on a string; `none` is the run-time panic. -/
def slice (s : GoString) (lo hi : Int) : Option GoString :=
  if 0 ≤ lo ∧ lo ≤ hi ∧ hi ≤ s.length then some ((s.take hi.toNat).drop lo.toNat) else none

/-- The value of `hostFileDataStr` after `main.go:196-209`, which removes a
previously written managed block from the text of the local hosts file. -/
def stripManagedHosts (hostFileDataStr : GoString) : Except Failure GoString :=
  if strings.Contains hostFileDataStr startManagedHosts then
    let hostFileDataStr := strings.Replace hostFileDataStr
      (ascii "\n\n" ++ startManagedHosts) (ascii "\n" ++ startManagedHosts) 1
    let startIndex := strings.Index hostFileDataStr startManagedHosts
    if startIndex = -1 then .error .noStartIndex
    else
      let endIndex := strings.LastIndex hostFileDataStr endManagedHosts
      if startIndex = -1 then .error .noEndIndex
      else
        match slice hostFileDataStr 0 startIndex,
              slice hostFileDataStr (endIndex + endManagedHosts.length) hostFileDataStr.length with
        | some before, some after => .ok (before ++ after)
        | _, _ => .error .sliceBounds
  else .ok hostFileDataStr

/-- The two lines written for one host (`main.go:242-243`). -/
def hostLines (host : GoString) : GoString :=
  (ascii "0.0.0.0" ++ ascii " " ++ host ++ ascii "\n")
    ++ (ascii "::0" ++ ascii " " ++ host ++ ascii "\n")

/-- The text written between the two markers (`main.go:241-244`) when the map
`uniqueHosts` is ranged in the given order. -/
def managedLines (order : List GoString) : GoString := (order.map hostLines).flatten

/-- The managed block: both markers and the lines between them
(`main.go:240-245`). -/
def managedBlock (order : List GoString) : GoString :=
  startManagedHosts ++ managedLines order ++ endManagedHosts

/-- The content of the new hosts file (`main.go:239-245`): all strings passed
to `write`, in order. -/
def newHostsFile (hostFileDataStr : GoString) (order : List GoString) : GoString :=
  (hostFileDataStr ++ ascii "\n") ++ startManagedHosts ++ managedLines order ++ endManagedHosts

/-- The runs of `main` from `main.go:153` on: from the downloaded texts and the
text of the local hosts file to the text `out` of the new hosts file; the map
`uniqueHosts` is ranged in some order, and a failure of the removal of the
managed block ends the program before anything is written. -/
def Runs (rawHostFiles : List GoString) (hostFileDataStr out : GoString) : Prop :=
  ∃ pre order, stripManagedHosts hostFileDataStr = .ok pre ∧
    RangeOrder (uniqueHosts (hosts rawHostFiles)) order ∧ out = newHostsFile pre order

/-! ## Occurrences of a substring -/

namespace strings

theorem IndexOpt_le (s sub : GoString) (i : Nat) (h : IndexOpt s sub = some i) :
    i ≤ s.length := by
  induction s generalizing i with
  | nil =>
    simp only [IndexOpt] at h
    split at h <;> simp_all
  | cons c t ih =>
    simp only [IndexOpt] at h
    split at h
    · simp at h; omega
    · cases hq : IndexOpt t sub with
      | none => simp [hq] at h
      | some k =>
        simp [hq] at h
        have := ih k hq
        simp; omega

theorem IndexOpt_occurs (s sub : GoString) (i : Nat) (h : IndexOpt s sub = some i) :
    sub <+: s.drop i := by
  induction s generalizing i with
  | nil =>
    simp only [IndexOpt] at h
    split at h
    · rename_i hp; simp at h; subst h; simpa using hp
    · simp at h
  | cons c t ih =>
    simp only [IndexOpt] at h
    split at h
    · rename_i hp; simp at h; subst h; simpa using hp
    · cases hq : IndexOpt t sub with
      | none => simp [hq] at h
      | some k =>
        simp [hq] at h
        subst h
        simpa using ih k hq

theorem IndexOpt_first (s sub : GoString) (i : Nat) (h : IndexOpt s sub = some i) :
    ∀ j, j < i → ¬ sub <+: s.drop j := by
  induction s generalizing i with
  | nil =>
    simp only [IndexOpt] at h
    split at h
    · simp at h; omega
    · simp at h
  | cons c t ih =>
    simp only [IndexOpt] at h
    split at h
    · simp at h; omega
    · rename_i hp
      cases hq : IndexOpt t sub with
      | none => simp [hq] at h
      | some k =>
        simp [hq] at h
        subst h
        intro j hj
        cases j with
        | zero => simpa using hp
        | succ j => simpa using ih k hq j (by omega)

theorem IndexOpt_none (s sub : GoString) (h : IndexOpt s sub = none) : ¬ sub <:+: s := by
  induction s with
  | nil =>
    simp only [IndexOpt] at h
    split at h
    · simp at h
    · rename_i hp
      intro hi
      apply hp
      have := List.eq_nil_of_infix_nil hi
      subst this
      simp
  | cons c t ih =>
    simp only [IndexOpt] at h
    split at h
    · simp at h
    · rename_i hp
      cases hq : IndexOpt t sub with
      | some k => simp [hq] at h
      | none =>
        rw [List.infix_cons_iff]
        rintro (h1 | h1)
        · exact hp (by simpa using h1)
        · exact ih hq h1

theorem infix_of_prefix_drop (s sub : GoString) (i : Nat) (h : sub <+: s.drop i) :
    sub <:+: s :=
  (h.isInfix).trans (List.drop_suffix i s).isInfix

/-- Characterisation of the first occurrence. -/
theorem IndexOpt_eq_some (s sub : GoString) (i : Nat)
    (hp : sub <+: s.drop i) (hf : ∀ j, j < i → ¬ sub <+: s.drop j) :
    IndexOpt s sub = some i := by
  cases hq : IndexOpt s sub with
  | none => exact absurd (infix_of_prefix_drop s sub i hp) (IndexOpt_none s sub hq)
  | some k =>
    have h1 := IndexOpt_occurs s sub k hq
    have h2 := IndexOpt_first s sub k hq
    rcases Nat.lt_trichotomy k i with h | h | h
    · exact absurd h1 (hf k h)
    · rw [h]
    · exact absurd hp (h2 i h)

theorem IndexOpt_isSome (s sub : GoString) (h : sub <:+: s) :
    ∃ i, IndexOpt s sub = some i := by
  cases hq : IndexOpt s sub with
  | none => exact absurd h (IndexOpt_none s sub hq)
  | some k => exact ⟨k, rfl⟩

theorem Contains_iff (s sub : GoString) : Contains s sub = true ↔ sub <:+: s := by
  unfold Contains Index
  cases hq : IndexOpt s sub with
  | none =>
    simp
    exact IndexOpt_none s sub hq
  | some k =>
    simp
    exact infix_of_prefix_drop s sub k (IndexOpt_occurs s sub k hq)

theorem LastIndexOpt_none (s sub : GoString) (h : ¬ sub <:+: s) : LastIndexOpt s sub = none := by
  induction s with
  | nil =>
    simp only [LastIndexOpt]
    split
    · rename_i hp
      exact absurd ((List.isPrefixOf_iff_prefix.mp hp).isInfix) h
    · rfl
  | cons c t ih =>
    rw [List.infix_cons_iff] at h
    push_neg at h
    simp only [LastIndexOpt, ih h.2]
    split
    · rename_i hp
      exact absurd (List.isPrefixOf_iff_prefix.mp hp) h.1
    · rfl

/-- The last occurrence of `sub` in `x ++ y`, when `y` starts with `sub` and
`sub` does not occur later in `y`. -/
theorem LastIndexOpt_append (x y sub : GoString) (hp : sub <+: y)
    (hn : ¬ sub <:+: y.tail) : LastIndexOpt (x ++ y) sub = some x.length := by
  induction x with
  | nil =>
    cases y with
    | nil =>
      have : sub = [] := List.eq_nil_of_prefix_nil hp
      subst this
      exact absurd List.nil_infix hn
    | cons c t =>
      simp only [List.nil_append, LastIndexOpt, LastIndexOpt_none t sub hn]
      simp [List.isPrefixOf_iff_prefix.mpr hp]
  | cons a x ih =>
    show LastIndexOpt (a :: (x ++ y)) sub = some (x.length + 1)
    unfold LastIndexOpt
    rw [ih]

/-- An occurrence of `c :: t` in `y ++ z` lies within `z` when `c` is not in `y`. -/
theorem infix_of_head_not_mem (c : Byte) (t y z : GoString) (hc : c ∉ y)
    (h : (c :: t) <:+: y ++ z) : (c :: t) <:+: z := by
  induction y with
  | nil => simpa using h
  | cons a y ih =>
    simp only [List.mem_cons, not_or] at hc
    rw [List.cons_append, List.infix_cons_iff] at h
    rcases h with h | h
    · rw [List.prefix_cons_iff] at h
      rcases h with h | ⟨t', h, _⟩
      · simp at h
      · simp at h
        exact absurd h.1 hc.1
    · exact ih hc.2 h

/-- A prefix occurrence of `c :: t` in `a ++ ((c :: t) ++ r)` with `a` non-empty
lies within `a` when `c` is not in `t`. -/
theorem prefix_of_head_unique (c : Byte) (t a r : GoString) (hc : c ∉ t) (ha : a ≠ [])
    (h : (c :: t) <+: a ++ ((c :: t) ++ r)) : (c :: t) <+: a := by
  by_cases hl : (c :: t).length ≤ a.length
  · exact List.prefix_of_prefix_length_le h (List.prefix_append _ _) hl
  · exfalso
    have h1 : a <+: c :: t :=
      List.prefix_of_prefix_length_le (List.prefix_append _ _) h (by omega)
    obtain ⟨u, hu⟩ := h1
    rw [← hu, List.prefix_append_right_inj] at h
    cases a with
    | nil => exact ha rfl
    | cons a0 a' =>
      simp only [List.cons_append, List.cons.injEq] at hu
      cases u with
      | nil =>
        simp at hl
        have := congrArg List.length hu.2
        simp at this
        omega
      | cons u0 u' =>
        simp only [List.cons_append, List.cons_prefix_cons] at h
        apply hc
        rw [← hu.2, h.1, hu.1]
        simp

/-- The first occurrence of `c :: t` in `a ++ (c :: t) ++ r`, when it does not
occur in `a` and `c` is not in `t`. -/
theorem IndexOpt_append (c : Byte) (t a r : GoString) (hc : c ∉ t)
    (ha : ¬ (c :: t) <:+: a) : IndexOpt (a ++ ((c :: t) ++ r)) (c :: t) = some a.length := by
  apply IndexOpt_eq_some
  · simp
  · intro j hj hp
    rw [List.drop_append_of_le_length (by omega)] at hp
    have hne : a.drop j ≠ [] := by
      intro h0
      have := congrArg List.length h0
      simp at this
      omega
    have h1 := prefix_of_head_unique c t (a.drop j) r hc hne hp
    exact ha (h1.isInfix.trans (List.drop_suffix j a).isInfix)

/-- `Replace` with `n = 1`. -/
theorem Replace_one (s old new : GoString) :
    Replace s old new 1 =
      match IndexOpt s old with
      | none => s
      | some j => s.take j ++ new ++ s.drop (j + old.length) := by
  simp only [Replace]

/-- The first occurrence of `p ++ sub` is `p.length` bytes before the first
occurrence of `sub`, when `p ++ sub` occurs there. -/
theorem IndexOpt_prepend (s p sub : GoString) (k : Nat)
    (hk : IndexOpt s sub = some (k + p.length)) (hp : (p ++ sub) <+: s.drop k) :
    IndexOpt s (p ++ sub) = some k := by
  apply IndexOpt_eq_some _ _ _ hp
  intro j hj hj'
  refine IndexOpt_first s sub _ hk (j + p.length) (by omega) ?_
  obtain ⟨u, hu⟩ := hj'
  refine ⟨u, ?_⟩
  rw [← List.drop_drop, ← hu]
  simp

/-- The last occurrence of `c :: t` in `x ++ (c :: t) ++ z`, when it does not
occur in `z` and `c` is not in `t`. -/
theorem LastIndexOpt_marker (c : Byte) (t x z : GoString) (hc : c ∉ t)
    (hz : ¬ (c :: t) <:+: z) :
    LastIndexOpt (x ++ ((c :: t) ++ z)) (c :: t) = some x.length := by
  apply LastIndexOpt_append _ _ _ (List.prefix_append _ _)
  intro h
  exact hz (infix_of_head_not_mem c t t z hc h)

end strings

/-! ## The two markers -/

theorem startManagedHosts_eq : startManagedHosts = 35 :: startManagedHosts.tail := by decide

theorem endManagedHosts_eq : endManagedHosts = 35 :: endManagedHosts.tail := by decide

theorem start_tail_no_hash : (35 : Byte) ∉ startManagedHosts.tail := by decide

theorem end_tail_no_hash : (35 : Byte) ∉ endManagedHosts.tail := by decide

theorem startManagedHosts_length : startManagedHosts.length = 47 := by decide

theorem endManagedHosts_length : endManagedHosts.length = 45 := by decide

/-- First occurrence of the start marker in `a ++ start ++ r`. -/
theorem IndexOpt_start (a r : GoString) (ha : ¬ startManagedHosts <:+: a) :
    strings.IndexOpt (a ++ (startManagedHosts ++ r)) startManagedHosts = some a.length := by
  have h := strings.IndexOpt_append 35 startManagedHosts.tail a r start_tail_no_hash
  rw [← startManagedHosts_eq] at h
  exact h ha

/-- Last occurrence of the end marker in `x ++ end ++ c`. -/
theorem LastIndexOpt_end (x c : GoString) (hc : ¬ endManagedHosts <:+: c) :
    strings.LastIndexOpt (x ++ (endManagedHosts ++ c)) endManagedHosts = some x.length := by
  have h := strings.LastIndexOpt_marker 35 endManagedHosts.tail x c end_tail_no_hash
  rw [← endManagedHosts_eq] at h
  exact h hc

theorem slice_front (x r : GoString) : slice (x ++ r) 0 (x.length : Int) = some x := by
  unfold slice
  rw [if_pos]
  · simp
  · simp

theorem slice_back (x r : GoString) (k : Int) (hk : k = x.length) :
    slice (x ++ r) k ((x ++ r).length : Int) = some r := by
  subst hk
  unfold slice
  rw [if_pos]
  · rw [Int.toNat_ofNat, Int.toNat_ofNat, List.take_length, List.drop_left]
  · simp

/-- The removal of the managed block, once the text after the `Replace` of
`main.go:197` is known to be `x ++ start ++ y ++ end ++ c`. -/
theorem stripManagedHosts_of_replace (text x y c : GoString)
    (hT : startManagedHosts <:+: text)
    (hr : strings.Replace text (ascii "\n\n" ++ startManagedHosts)
      (ascii "\n" ++ startManagedHosts) 1 = x ++ (startManagedHosts ++ (y ++ (endManagedHosts ++ c))))
    (hx : ¬ startManagedHosts <:+: x) (hc : ¬ endManagedHosts <:+: c) :
    stripManagedHosts text = .ok (x ++ c) := by
  have hs : strings.Index (x ++ (startManagedHosts ++ (y ++ (endManagedHosts ++ c))))
      startManagedHosts = (x.length : Int) := by
    unfold strings.Index
    rw [IndexOpt_start x _ hx]
  have he : strings.LastIndex (x ++ (startManagedHosts ++ (y ++ (endManagedHosts ++ c))))
      endManagedHosts = ((x ++ (startManagedHosts ++ y)).length : Int) := by
    unfold strings.LastIndex
    have := LastIndexOpt_end (x ++ (startManagedHosts ++ y)) c hc
    simp only [List.append_assoc] at this
    rw [this]
  have hcon : strings.Contains text startManagedHosts = true :=
    (strings.Contains_iff _ _).mpr hT
  unfold stripManagedHosts
  simp only [hcon, if_true, hr, hs, he]
  have hne : ¬ ((x.length : Int) = -1) := by omega
  simp only [hne, if_false]
  rw [slice_front]
  have h2 := slice_back (x ++ (startManagedHosts ++ (y ++ endManagedHosts))) c
    (((x ++ (startManagedHosts ++ y)).length : Int) + (endManagedHosts.length : Int))
    (by simp only [List.length_append]; push_cast; ring)
  simp only [List.append_assoc] at h2
  rw [h2]

theorem ascii_nl : ascii "\n" = [10] := by decide

theorem ascii_nlnl : ascii "\n\n" = [10, 10] := by decide

theorem startManagedHosts_end :
    startManagedHosts = startManagedHosts.take 45 ++ [46] ++ [10] := by decide

namespace strings

/-- `Replace` with `n = 1` at a known first occurrence. -/
theorem Replace_at (a old new r : GoString)
    (h : IndexOpt (a ++ (old ++ r)) old = some a.length) :
    Replace (a ++ (old ++ r)) old new 1 = a ++ (new ++ r) := by
  rw [Replace_one, h]
  simp only [List.take_left, List.append_assoc]
  rw [← List.drop_drop, List.drop_left, List.drop_left]

/-- `Replace` with `n = 1` when `old` does not occur. -/
theorem Replace_none (s old new : GoString) (h : ¬ old <:+: s) :
    Replace s old new 1 = s := by
  rw [Replace_one]
  cases hq : IndexOpt s old with
  | none => rfl
  | some k => exact absurd (infix_of_prefix_drop s old k (IndexOpt_occurs s old k hq)) h

end strings

/-- The start marker does not end with two newlines. -/
theorem start_not_infix_concat (x : GoString) (h : ¬ startManagedHosts <:+: x ++ [10]) :
    ¬ startManagedHosts <:+: x ++ [10] ++ [10] := by
  rw [List.infix_concat_iff]
  rintro (h1 | h1)
  · rw [List.suffix_concat_iff] at h1
    rcases h1 with h1 | ⟨t, ht, hs⟩
    · exact absurd h1 (by decide)
    · rw [startManagedHosts_end] at ht
      have ht' := List.append_inj_left' ht rfl
      rw [← ht', List.suffix_concat_iff] at hs
      rcases hs with hs | ⟨t', ht2, _⟩
      · simp at hs
      · have := List.append_inj_right' ht2 rfl
        simp at this
  · exact h h1

/-- First occurrence of the text replaced at `main.go:197` (two newlines and
the start marker), when it stands right after `a`. -/
theorem IndexOpt_old (a r : GoString) (ha : ¬ startManagedHosts <:+: a ++ [10] ++ [10]) :
    strings.IndexOpt (a ++ ((ascii "\n\n" ++ startManagedHosts) ++ r))
      (ascii "\n\n" ++ startManagedHosts) = some a.length := by
  apply strings.IndexOpt_prepend
  · have h := IndexOpt_start (a ++ [10] ++ [10]) r ha
    rw [ascii_nlnl]
    simp only [List.append_assoc, List.length_append, List.length_cons, List.length_nil,
      List.singleton_append, List.cons_append, List.nil_append] at h ⊢
    exact h
  · rw [List.drop_left]
    exact List.prefix_append _ _

/-- The removal of the managed block from a text written by `main` itself, for
a text before the block that ends with a newline. -/
theorem stripManagedHosts_newHostsFile (p : GoString) (order : List GoString)
    (hS : ¬ startManagedHosts <:+: p ++ [10]) :
    stripManagedHosts (newHostsFile (p ++ [10]) order) = .ok (p ++ [10]) := by
  have hform : newHostsFile (p ++ [10]) order =
      p ++ ((ascii "\n\n" ++ startManagedHosts) ++ (managedLines order ++ (endManagedHosts ++ []))) := by
    simp [newHostsFile, ascii_nl, ascii_nlnl]
  have h := stripManagedHosts_of_replace (newHostsFile (p ++ [10]) order) (p ++ [10])
    (managedLines order) [] ⟨p ++ [10] ++ [10], managedLines order ++ endManagedHosts, by
      simp [newHostsFile, ascii_nl]⟩ ?_ hS (by decide)
  · simpa using h
  · rw [hform, strings.Replace_at _ _ _ _ (IndexOpt_old p _ (start_not_infix_concat p hS))]
    simp [ascii_nl]

theorem start_dropLast_no_nl : (10 : Byte) ∉ startManagedHosts.take 45 ++ [46] := by decide

theorem end_not_prefix_start : ¬ endManagedHosts <+: startManagedHosts := by decide

theorem append_cons_eq_concat (a : Byte) (w x y : GoString) (hw : a ∉ w)
    (h : x ++ a :: y = w ++ [a]) : x = w ∧ y = [] := by
  induction w generalizing x with
  | nil =>
    cases x with
    | nil => simpa using h
    | cons b x' =>
      simp at h
  | cons c w' ih =>
    simp only [List.mem_cons, not_or] at hw
    cases x with
    | nil =>
      simp at h
      exact absurd h.1 hw.1
    | cons b x' =>
      simp only [List.cons_append, List.cons.injEq] at h
      obtain ⟨h1, h2⟩ := ih x' hw.2 h.2
      exact ⟨by rw [h.1, h1], h2⟩

/-- The start marker does not begin inside the end marker or after it, in a
text `end ++ c` whose part `c` is free of the start marker. -/
theorem start_not_infix_end_append (c : GoString) (hc : ¬ startManagedHosts <:+: c) :
    ¬ startManagedHosts <:+: endManagedHosts ++ c := by
  intro h
  rw [endManagedHosts_eq, List.cons_append, List.infix_cons_iff] at h
  rcases h with h | h
  · rw [← List.cons_append, ← endManagedHosts_eq] at h
    exact end_not_prefix_start
      (List.prefix_of_prefix_length_le (List.prefix_append _ _) h (by decide))
  · rw [startManagedHosts_eq] at h
    have := strings.infix_of_head_not_mem 35 _ _ c end_tail_no_hash h
    rw [← startManagedHosts_eq] at this
    exact hc this

/-- If `w ++ start ++ rest = x ++ end ++ c` and `c` is free of the start
marker, the occurrence of the start marker lies before the end marker. -/
theorem back_kept (w rest x c : GoString)
    (h : (w ++ startManagedHosts) ++ rest = x ++ (endManagedHosts ++ c))
    (hc : ¬ startManagedHosts <:+: c) : ∃ z, rest = z ++ (endManagedHosts ++ c) := by
  rw [List.append_eq_append_iff] at h
  rcases h with ⟨a', _, h2⟩ | ⟨c', h1, h2⟩
  · exact ⟨a', h2⟩
  · cases c' with
    | nil => exact ⟨[], by simpa using h2.symm⟩
    | cons d c'' =>
      exfalso
      have hd : d = 35 := by
        rw [endManagedHosts_eq] at h2
        simp at h2
        exact h2.1.symm
      rw [List.append_eq_append_iff] at h1
      rcases h1 with ⟨a2, _, h4⟩ | ⟨c2, _, h4⟩
      · -- the occurrence starts before the end marker and ends inside or after it
        cases a2 with
        | nil =>
          simp only [List.nil_append] at h4
          apply start_not_infix_end_append c hc
          rw [h2, ← h4]
          exact (List.prefix_append _ _).isInfix
        | cons b a2' =>
          have h5 : startManagedHosts.tail = a2' ++ d :: c'' := by
            rw [h4]; rfl
          apply start_tail_no_hash
          rw [h5, hd]
          simp
      · -- the occurrence starts at or after the start of the end marker
        apply start_not_infix_end_append c hc
        rw [h2, h4]
        exact ⟨c2, rest, by simp⟩

/-- A prefix occurrence of the start marker in `a ++ start ++ r` with `a`
non-empty lies within `a`. -/
theorem prefix_start_unique (a r : GoString) (ha : a ≠ [])
    (h : startManagedHosts <+: a ++ (startManagedHosts ++ r)) : startManagedHosts <+: a := by
  have key := strings.prefix_of_head_unique 35 startManagedHosts.tail a r start_tail_no_hash ha
  rw [← startManagedHosts_eq] at key
  exact key h

/-- If `s ++ "\n\n" ++ start ++ rest = a ++ start ++ r`, where `a` is free of
the start marker and does not end with two newlines, the first newline of the
pair stands after `a ++ start` or is the last byte of it. -/
theorem front_kept (a s rest r : GoString)
    (h : (s ++ [10]) ++ ([10] ++ (startManagedHosts ++ rest)) = a ++ (startManagedHosts ++ r))
    (ha : ¬ startManagedHosts <:+: a) (hnn : ¬ [10, 10] <:+ a) :
    a ++ startManagedHosts <+: s ++ [10] := by
  rw [List.append_eq_append_iff] at h
  rcases h with ⟨a', h1, h2⟩ | ⟨c', h1, h2⟩
  · -- `a` reaches beyond the first newline
    exfalso
    cases a' with
    | nil =>
      rw [startManagedHosts_eq] at h2
      simp at h2
    | cons b a2 =>
      have hb : b = 10 := by simp at h2; exact h2.1.symm
      subst hb
      cases a2 with
      | nil =>
        apply hnn
        rw [h1]
        exact ⟨s, by simp⟩
      | cons b2 a3 =>
        simp only [List.cons_append, List.nil_append, List.cons.injEq, true_and] at h2
        have hp : startManagedHosts <+: (b2 :: a3) ++ (startManagedHosts ++ r) := by
          rw [List.cons_append, ← h2]
          exact List.prefix_append _ _
        have h3 := prefix_start_unique (b2 :: a3) r (by simp) hp
        apply ha
        rw [h1]
        exact h3.isInfix.trans ⟨s ++ [10] ++ [10], [], by simp⟩
  · -- the first newline stands at or after the end of `a`
    rw [h1, List.prefix_append_right_inj]
    have hp : startManagedHosts <+: c' ++ ([10] ++ (startManagedHosts ++ rest)) := by
      rw [← h2]
      exact List.prefix_append _ _
    by_cases hl : startManagedHosts.length ≤ c'.length
    · exact List.prefix_of_prefix_length_le hp (List.prefix_append _ _) hl
    · exfalso
      obtain ⟨t, ht⟩ := List.prefix_of_prefix_length_le (List.prefix_append _ _) hp
        (Nat.le_of_lt (Nat.lt_of_not_le hl))
      rw [← ht, List.append_assoc, List.append_cancel_left_eq] at h2
      cases t with
      | nil =>
        simp at ht
        rw [ht] at hl
        exact hl (Nat.le_refl _)
      | cons b t' =>
        have hb : b = 10 := by simp at h2; exact h2.1
        subst hb
        rw [startManagedHosts_end, List.append_assoc] at ht
        have h5 := append_cons_eq_concat 10 (startManagedHosts.take 45 ++ [46]) c' t'
          start_dropLast_no_nl (by simpa using ht)
        rw [h5.1] at h1
        have h6 := List.append_inj_right' (by simpa using h1 :
          s ++ [10] = (a ++ startManagedHosts.take 45) ++ [46]) rfl
        simp at h6

/-- The removal of the managed block from `a ++ start ++ b ++ end ++ c`. -/
theorem stripManagedHosts_block (a b c : GoString)
    (ha : ¬ startManagedHosts <:+: a) (hce : ¬ endManagedHosts <:+: c)
    (hcs : ¬ startManagedHosts <:+: c) :
    stripManagedHosts (a ++ startManagedHosts ++ b ++ endManagedHosts ++ c)
      = .ok ((if ascii "\n\n" <:+ a then a.dropLast else a) ++ c) := by
  have hT : startManagedHosts <:+: a ++ startManagedHosts ++ b ++ endManagedHosts ++ c :=
    ⟨a, b ++ endManagedHosts ++ c, by simp⟩
  rw [ascii_nlnl]
  by_cases hnn : [10, 10] <:+ a
  · rw [if_pos hnn]
    obtain ⟨a0, rfl⟩ := hnn
    have hd : (a0 ++ [10, 10]).dropLast = a0 ++ [10] := by
      rw [show a0 ++ [10, 10] = (a0 ++ [10]) ++ [10] by simp, List.dropLast_concat]
    rw [hd]
    have ha' : ¬ startManagedHosts <:+: a0 ++ [10] ++ [10] := by simpa using ha
    have ha0 : ¬ startManagedHosts <:+: a0 ++ [10] := fun h =>
      ha' (h.trans (List.prefix_append _ _).isInfix)
    refine stripManagedHosts_of_replace _ (a0 ++ [10]) b c hT ?_ ha0 hce
    have hform : a0 ++ [10, 10] ++ startManagedHosts ++ b ++ endManagedHosts ++ c
        = a0 ++ ((ascii "\n\n" ++ startManagedHosts) ++ (b ++ (endManagedHosts ++ c))) := by
      simp [ascii_nlnl]
    rw [hform, strings.Replace_at _ _ _ _ (IndexOpt_old a0 _ ha')]
    simp [ascii_nl]
  · rw [if_neg hnn]
    by_cases ho : (ascii "\n\n" ++ startManagedHosts) <:+:
        a ++ startManagedHosts ++ b ++ endManagedHosts ++ c
    · obtain ⟨j, hj⟩ := strings.IndexOpt_isSome _ _ ho
      obtain ⟨rest, hrest⟩ := strings.IndexOpt_occurs _ _ _ hj
      have hsplit := List.take_append_drop j (a ++ startManagedHosts ++ b ++ endManagedHosts ++ c)
      rw [← hrest] at hsplit
      have hdrop : List.drop (j + (ascii "\n\n" ++ startManagedHosts).length)
          (a ++ startManagedHosts ++ b ++ endManagedHosts ++ c) = rest := by
        rw [← List.drop_drop, ← hrest, List.drop_left]
      have hrep := strings.Replace_one (a ++ startManagedHosts ++ b ++ endManagedHosts ++ c)
        (ascii "\n\n" ++ startManagedHosts) (ascii "\n" ++ startManagedHosts)
      rw [hj] at hrep
      simp only [hdrop] at hrep
      obtain ⟨s, hs⟩ : ∃ s, List.take j (a ++ startManagedHosts ++ b ++ endManagedHosts ++ c) = s :=
        ⟨_, rfl⟩
      rw [hs] at hsplit hrep
      have hb := back_kept (s ++ [10, 10]) rest (a ++ startManagedHosts ++ b) c
        (by simpa [ascii_nlnl] using hsplit) hcs
      obtain ⟨z, rfl⟩ := hb
      have hf := front_kept a s (z ++ (endManagedHosts ++ c)) (b ++ endManagedHosts ++ c)
        (by simpa [ascii_nlnl] using hsplit) ha hnn
      obtain ⟨m, hm⟩ := hf
      refine stripManagedHosts_of_replace _ a (m ++ (startManagedHosts ++ z)) c hT ?_ ha hce
      rw [hrep, ascii_nl, ← List.append_assoc s [10], ← hm]
      simp
    · refine stripManagedHosts_of_replace _ a b c hT ?_ ha hce
      rw [strings.Replace_none _ _ _ ho]
      simp

/-! ## The map `uniqueHosts` -/

/-- The loop of `main.go:180-184` from a map with keys `m`. -/
theorem uniqueHosts_foldl_inv (hs m : List GoString) (hm : m.Nodup)
    (hi : ∀ h ∈ m, h ∉ ignoreListInDownloadedFiles) :
    let r := hs.foldl
      (fun m h => if h ∈ ignoreListInDownloadedFiles then m else mapSet m h) m
    r.Nodup ∧ (∀ h ∈ r, h ∉ ignoreListInDownloadedFiles) ∧
      (∀ h, h ∈ r ↔ h ∈ m ∨ (h ∈ hs ∧ h ∉ ignoreListInDownloadedFiles)) := by
  induction hs generalizing m with
  | nil => simp; exact ⟨hm, hi⟩
  | cons a hs ih =>
    simp only [List.foldl_cons]
    by_cases ha : a ∈ ignoreListInDownloadedFiles
    · rw [if_pos ha]
      obtain ⟨h1, h2, h3⟩ := ih m hm hi
      refine ⟨h1, h2, ?_⟩
      intro h
      rw [h3 h]
      constructor
      · rintro (h4 | ⟨h4, h5⟩)
        · exact Or.inl h4
        · exact Or.inr ⟨List.mem_cons_of_mem _ h4, h5⟩
      · rintro (h4 | ⟨h4, h5⟩)
        · exact Or.inl h4
        · rcases List.mem_cons.mp h4 with h6 | h6
          · subst h6; exact absurd ha h5
          · exact Or.inr ⟨h6, h5⟩
    · rw [if_neg ha]
      have hm' : (mapSet m a).Nodup := by
        unfold mapSet
        split
        · exact hm
        · rename_i hn
          exact List.nodup_append.mpr ⟨hm, List.nodup_singleton a, by
            intro x hx hx'
            simp at hx'
            subst hx'
            exact hn hx⟩
      have hmem : ∀ h, h ∈ mapSet m a ↔ h ∈ m ∨ h = a := by
        intro h
        unfold mapSet
        split
        · rename_i hin
          constructor
          · exact Or.inl
          · rintro (h1 | h1)
            · exact h1
            · subst h1; exact hin
        · simp
      have hi' : ∀ h ∈ mapSet m a, h ∉ ignoreListInDownloadedFiles := by
        intro h hh
        rcases (hmem h).mp hh with h1 | h1
        · exact hi h h1
        · subst h1; exact ha
      obtain ⟨h1, h2, h3⟩ := ih (mapSet m a) hm' hi'
      refine ⟨h1, h2, ?_⟩
      intro h
      rw [h3 h, hmem h]
      constructor
      · rintro ((h4 | h4) | ⟨h4, h5⟩)
        · exact Or.inl h4
        · subst h4; exact Or.inr ⟨List.mem_cons_self _ _, ha⟩
        · exact Or.inr ⟨List.mem_cons_of_mem _ h4, h5⟩
      · rintro (h4 | ⟨h4, h5⟩)
        · exact Or.inl (Or.inl h4)
        · rcases List.mem_cons.mp h4 with h6 | h6
          · exact Or.inl (Or.inr h6)
          · exact Or.inr ⟨h6, h5⟩

theorem uniqueHosts_nodup (hs : List GoString) : (uniqueHosts hs).Nodup :=
  (uniqueHosts_foldl_inv hs [] List.nodup_nil (by simp)).1

theorem mem_uniqueHosts (hs : List GoString) (h : GoString) :
    h ∈ uniqueHosts hs ↔ h ∈ hs ∧ h ∉ ignoreListInDownloadedFiles := by
  have := (uniqueHosts_foldl_inv hs [] List.nodup_nil (by simp)).2.2 h
  simpa using this

/-- Entering every key twice, in an order without repetition and without
ignored names, gives the keys in that order. -/
theorem uniqueHosts_foldl_dup (order m : List GoString) (ho : (m ++ order).Nodup)
    (hi : ∀ h ∈ order, h ∉ ignoreListInDownloadedFiles) :
    (order.flatMap (fun h => [h, h])).foldl
      (fun m h => if h ∈ ignoreListInDownloadedFiles then m else mapSet m h) m = m ++ order := by
  induction order generalizing m with
  | nil => simp
  | cons a order ih =>
    have ha : a ∉ ignoreListInDownloadedFiles := hi a (List.mem_cons_self _ _)
    have ham : a ∉ m := by
      intro h
      have := List.nodup_append.mp ho
      exact this.2.2 h (List.mem_cons_self _ _)
    have h1 : mapSet m a = m ++ [a] := by unfold mapSet; rw [if_neg ham]
    have h2 : mapSet (m ++ [a]) a = m ++ [a] := by unfold mapSet; rw [if_pos (by simp)]
    simp only [List.flatMap_cons, List.cons_append, List.nil_append, List.foldl_cons, if_neg ha,
      h1, h2]
    rw [ih (m ++ [a]) (by simpa using ho) (fun h hh => hi h (List.mem_cons_of_mem _ hh))]
    simp

theorem uniqueHosts_dup (order : List GoString) (ho : order.Nodup)
    (hi : ∀ h ∈ order, h ∉ ignoreListInDownloadedFiles) :
    uniqueHosts (order.flatMap (fun h => [h, h])) = order := by
  have := uniqueHosts_foldl_dup order [] (by simpa using ho) hi
  simpa [uniqueHosts] using this

/-! ## `strings.Split` on a one-byte separator -/

namespace strings

theorem IndexOpt_nil_cons (c : Byte) (t : GoString) : IndexOpt [] (c :: t) = none := by
  simp [IndexOpt, List.isPrefixOf]

/-- The result of the loop does not depend on the bound once it is at least
the length of the string. -/
theorem SplitAux_fuel (c : Byte) (t : GoString) (f1 f2 : Nat) (s : GoString)
    (h1 : s.length ≤ f1) (h2 : s.length ≤ f2) :
    SplitAux (c :: t) f1 s = SplitAux (c :: t) f2 s := by
  induction f1 generalizing f2 s with
  | zero =>
    have hs : s = [] := List.length_eq_zero.mp (Nat.le_zero.mp h1)
    subst hs
    cases f2 with
    | zero => rfl
    | succ f2 => simp [SplitAux, IndexOpt_nil_cons]
  | succ f1 ih =>
    cases f2 with
    | zero =>
      have hs : s = [] := List.length_eq_zero.mp (Nat.le_zero.mp h2)
      subst hs
      simp [SplitAux, IndexOpt_nil_cons]
    | succ f2 =>
      simp only [SplitAux]
      cases hq : IndexOpt s (c :: t) with
      | none => rfl
      | some m =>
        simp only
        rw [ih f2 (s.drop (m + (c :: t).length))]
        · simp only [List.length_drop, List.length_cons]; omega
        · simp only [List.length_drop, List.length_cons]; omega

theorem not_infix_singleton (c : Byte) (x : GoString) (h : c ∉ x) : ¬ [c] <:+: x := by
  rintro ⟨s, t, rfl⟩
  simp at h

theorem Split_not_mem (c : Byte) (x : GoString) (h : c ∉ x) : Split x [c] = [x] := by
  unfold Split
  cases hx : x.length with
  | zero =>
    have := List.length_eq_zero.mp hx
    subst this
    rfl
  | succ n =>
    simp only [SplitAux]
    cases hq : IndexOpt x [c] with
    | none => rfl
    | some k =>
      exact absurd (infix_of_prefix_drop x [c] k (IndexOpt_occurs x [c] k hq))
        (not_infix_singleton c x h)

theorem Split_append_cons (c : Byte) (x r : GoString) (h : c ∉ x) :
    Split (x ++ c :: r) [c] = x :: Split r [c] := by
  have hi : IndexOpt (x ++ ([c] ++ r)) [c] = some x.length :=
    IndexOpt_append c [] x r (by simp) (not_infix_singleton c x h)
  unfold Split
  have hl : (x ++ c :: r).length = (x.length + r.length) + 1 := by simp; omega
  rw [hl]
  simp only [SplitAux]
  simp only [List.singleton_append] at hi
  rw [hi]
  simp only [List.take_left', List.length_singleton, List.cons.injEq, true_and]
  have hd : List.drop (x.length + 1) (x ++ c :: r) = r := by
    rw [← List.drop_drop, List.drop_left]
    rfl
  rw [hd]
  exact SplitAux_fuel c [] _ _ r (by omega) (Nat.le_refl _)

/-- A string either is free of `c` or splits at the first `c`. -/
theorem split_first (c : Byte) (s : GoString) :
    c ∉ s ∨ ∃ x r, s = x ++ c :: r ∧ c ∉ x := by
  induction s with
  | nil => left; simp
  | cons b t ih =>
    by_cases hb : b = c
    · right; exact ⟨[], t, by simp [hb], by simp⟩
    · rcases ih with h | ⟨x, r, h1, h2⟩
      · left
        simp only [List.mem_cons, not_or]
        exact ⟨fun h' => hb h'.symm, h⟩
      · right
        refine ⟨b :: x, r, by simp [h1], ?_⟩
        simp only [List.mem_cons, not_or]
        exact ⟨fun h' => hb h'.symm, h2⟩

/-- No piece of a split contains the separator. -/
theorem not_mem_of_mem_Split_aux (c : Byte) (n : Nat) :
    ∀ s : GoString, s.length ≤ n → ∀ p ∈ Split s [c], c ∉ p := by
  induction n with
  | zero =>
    intro s hs p hp
    have h0 : s = [] := List.length_eq_zero.mp (Nat.le_zero.mp hs)
    subst h0
    have : p = [] := by simpa [Split, SplitAux] using hp
    simp [this]
  | succ n ih =>
    intro s hs
    rcases split_first c s with h | ⟨x, r, h1, h2⟩
    · rw [Split_not_mem c s h]
      intro p hp
      simp at hp
      rw [hp]; exact h
    · rw [h1, Split_append_cons c x r h2]
      intro p hp
      rcases List.mem_cons.mp hp with h3 | h3
      · rw [h3]; exact h2
      · refine ih r ?_ p h3
        rw [h1] at hs
        simp at hs
        omega

theorem not_mem_of_mem_Split (c : Byte) (s : GoString) :
    ∀ p ∈ Split s [c], c ∉ p :=
  not_mem_of_mem_Split_aux c s.length s (Nat.le_refl _)

/-- The first piece of a split is a prefix free of the separator. -/
theorem Split_head (c : Byte) (s : GoString) :
    (Split s [c]).headD [] <+: s ∧ c ∉ (Split s [c]).headD [] := by
  rcases split_first c s with h | ⟨x, r, h1, h2⟩
  · rw [Split_not_mem c s h]
    exact ⟨List.prefix_refl _, h⟩
  · rw [h1, Split_append_cons c x r h2]
    exact ⟨List.prefix_append _ _, h2⟩

end strings

/-! ## The loop computing `host` -/

theorem afterFirstSpace_concat (p : GoString) (b : Byte) :
    afterFirstSpace (p ++ [b]) =
      match afterFirstSpace p with
      | some r => some (r ++ [b])
      | none => if unicode.IsSpace b.val then some [] else none := by
  induction p with
  | nil => simp [afterFirstSpace]
  | cons a p ih =>
    simp only [List.cons_append, afterFirstSpace]
    split
    · rfl
    · exact ih

theorem hostLoop_append (pre suf h : GoString) :
    hostLoop (pre ++ suf) pre.length h =
      match afterFirstSpace pre with
      | some r => r ++ suf
      | none => h := by
  induction pre using List.reverseRecOn generalizing suf h with
  | nil => simp [hostLoop, afterFirstSpace]
  | append_singleton pre b ih =>
    have hl : (pre ++ [b]).length = pre.length + 1 := by simp
    rw [hl]
    simp only [hostLoop]
    have hg : (pre ++ [b] ++ suf).getD pre.length 0 = b := by
      rw [List.getD_eq_getElem?_getD, List.append_assoc,
        List.getElem?_append_right (Nat.le_refl _)]
      simp
    have hd : (pre ++ [b] ++ suf).drop (pre.length + 1) = suf := by
      rw [← hl, List.drop_left']
      rfl
    rw [hg, hd, List.append_assoc, ih, afterFirstSpace_concat]
    cases afterFirstSpace pre with
    | none =>
      simp only
      split <;> simp
    | some r => simp

/-- The loop leaves in `host` the text after the first white-space byte, and
the empty string when there is none. -/
theorem host_eq (e : GoString) : host e = (afterFirstSpace e).getD [] := by
  have := hostLoop_append e [] []
  simp only [List.append_nil] at this
  unfold host
  rw [this]
  cases afterFirstSpace e <;> simp

theorem afterFirstSpace_some (e r : GoString) (h : afterFirstSpace e = some r) :
    ∃ addr w, e = addr ++ w :: r ∧ unicode.IsSpace w.val = true ∧
      ∀ b ∈ addr, unicode.IsSpace b.val = false := by
  induction e with
  | nil => simp [afterFirstSpace] at h
  | cons a e ih =>
    simp only [afterFirstSpace] at h
    split at h
    · rename_i ha
      simp at h
      subst h
      exact ⟨[], a, rfl, ha, by simp⟩
    · rename_i ha
      obtain ⟨addr, w, h1, h2, h3⟩ := ih h
      refine ⟨a :: addr, w, by simp [h1], h2, ?_⟩
      intro b hb
      rcases List.mem_cons.mp hb with h4 | h4
      · subst h4; simpa using ha
      · exact h3 b h4

theorem afterFirstSpace_none (e : GoString) (h : afterFirstSpace e = none) :
    ∀ b ∈ e, unicode.IsSpace b.val = false := by
  induction e with
  | nil => simp
  | cons a e ih =>
    simp only [afterFirstSpace] at h
    split at h
    · simp at h
    · rename_i ha
      intro b hb
      rcases List.mem_cons.mp hb with h4 | h4
      · subst h4; simpa using ha
      · exact ih h b h4

theorem afterFirstSpace_append (addr r : GoString) (w : Byte)
    (hw : unicode.IsSpace w.val = true) (ha : ∀ b ∈ addr, unicode.IsSpace b.val = false) :
    afterFirstSpace (addr ++ w :: r) = some r := by
  induction addr with
  | nil => simp [afterFirstSpace, hw]
  | cons a addr ih =>
    simp only [List.cons_append, afterFirstSpace, ha a (List.mem_cons_self _ _)]
    exact ih (fun b hb => ha b (List.mem_cons_of_mem _ hb))

/-- The host is a suffix of the entry. -/
theorem host_suffix (e : GoString) : host e <:+ e := by
  rw [host_eq]
  cases h : afterFirstSpace e with
  | none => simp
  | some r =>
    obtain ⟨addr, w, h1, _, _⟩ := afterFirstSpace_some e r h
    simp only [Option.getD_some]
    rw [h1]
    exact ⟨addr ++ [w], by simp⟩

/-! ## Decoding of runes and `strings.TrimSpace` -/

namespace utf8

theorem DecodeRune_ascii (q : Byte) (t : GoString) (h : q.val < 0x80) :
    DecodeRuneInString (q :: t) = (q.val, 1) := by
  simp [DecodeRuneInString, RuneSelf, h]

theorem leading_cont (c : Nat) (h2 : c < 0xC2) : leading c = none := by
  unfold leading
  repeat' split
  all_goals first | rfl | omega

theorem DecodeRune_cont (c : Byte) (t : GoString) (h1 : 0x80 ≤ c.val) (h2 : c.val < 0xC0) :
    DecodeRuneInString (c :: t) = (RuneError, 1) := by
  have h3 : ¬ c.val < RuneSelf := by unfold RuneSelf; omega
  simp only [DecodeRuneInString, h3, if_false, leading_cont c.val (by omega)]

theorem DecodeRune_single (b : Byte) (h : 0x80 ≤ b.val) :
    DecodeRuneInString [b] = (RuneError, 1) := by
  have h3 : ¬ b.val < RuneSelf := by unfold RuneSelf; omega
  simp only [DecodeRuneInString, h3, if_false]
  repeat' split
  all_goals rfl

theorem DecodeRune_size_le (s : GoString) : (DecodeRuneInString s).2 ≤ 4 := by
  unfold DecodeRuneInString
  repeat' split
  all_goals simp

theorem DecodeRune_size_pos (s : GoString) (h : s ≠ []) : 1 ≤ (DecodeRuneInString s).2 := by
  unfold DecodeRuneInString
  repeat' split
  all_goals simp at h ⊢

theorem DecodeLast_rev (b0 : Byte) (rest : GoString) :
    DecodeLastRuneInString (b0 :: rest).reverse =
      if b0.val < RuneSelf then (b0.val, 1)
      else
        if (DecodeRuneInString (b0 :: rest.take (scanBack 3 rest)).reverse).2
            ≠ scanBack 3 rest + 1 then (RuneError, 1)
        else DecodeRuneInString (b0 :: rest.take (scanBack 3 rest)).reverse := by
  unfold DecodeLastRuneInString
  rw [List.reverse_reverse]

theorem DecodeLast_size_pos (s : GoString) (h : s ≠ []) :
    1 ≤ (DecodeLastRuneInString s).2 := by
  obtain ⟨r, hr⟩ : ∃ r, s.reverse = r := ⟨_, rfl⟩
  have hs : s = r.reverse := by rw [← hr, List.reverse_reverse]
  subst hs
  cases r with
  | nil => simp at h
  | cons b0 rest =>
    rw [DecodeLast_rev]
    split
    · simp
    · split
      · simp
      · rename_i h2
        simp only [ne_eq, not_not] at h2
        rw [h2]; omega

end utf8

theorem IsSpace_RuneError : unicode.IsSpace utf8.RuneError = false := by decide

theorem not_RuneStart (c : Byte) (h : utf8.RuneStart c = false) :
    0x80 ≤ c.val ∧ c.val < 0xC0 := by
  unfold utf8.RuneStart at h
  simp at h
  omega

theorem RuneStart_ascii (q : Byte) (h : q.val < 0x80) : utf8.RuneStart q = true := by
  unfold utf8.RuneStart
  simp [h]

set_option maxHeartbeats 1000000 in
/-- Whether a string ends with white space is decided by its last bytes: the
bytes `x` before a non-empty end can be replaced by any `y` when the string
ends with white space and `x` is empty or ends with an ASCII byte. -/
theorem endsWithSpace_rev_ext (b0 : Byte) (hr x y : GoString)
    (hx : ∀ q, x.head? = some q → q.val < 0x80)
    (hsp : strings.endsWithSpace (b0 :: (hr ++ x)).reverse = true) :
    strings.endsWithSpace (b0 :: (hr ++ y)).reverse = true := by
  unfold strings.endsWithSpace at hsp ⊢
  rw [utf8.DecodeLast_rev] at hsp ⊢
  by_cases hb0 : b0.val < utf8.RuneSelf
  · simpa [hb0] using hsp
  · have hb0' : 0x80 ≤ b0.val := by unfold utf8.RuneSelf at hb0; omega
    simp only [hb0, if_false] at hsp ⊢
    rcases hr with _ | ⟨h1, _ | ⟨h2, _ | ⟨h3, hr3⟩⟩⟩
    · -- the end is a single byte
      exfalso
      rcases x with _ | ⟨q, x'⟩
      · simp [utf8.scanBack, utf8.DecodeRune_single b0 hb0', IsSpace_RuneError] at hsp
      · have hq := hx q rfl
        simp [utf8.scanBack, RuneStart_ascii q hq, utf8.DecodeRune_ascii q _ hq,
          IsSpace_RuneError] at hsp
    · -- two bytes
      by_cases hs1 : utf8.RuneStart h1 = true
      · simpa [utf8.scanBack, hs1] using hsp
      · exfalso
        have hc1 := not_RuneStart h1 (by simpa using hs1)
        rcases x with _ | ⟨q, x'⟩
        · simp [utf8.scanBack, hs1, utf8.DecodeRune_cont h1 _ hc1.1 hc1.2,
            IsSpace_RuneError] at hsp
        · have hq := hx q rfl
          simp [utf8.scanBack, hs1, RuneStart_ascii q hq, utf8.DecodeRune_ascii q _ hq,
            IsSpace_RuneError] at hsp
    · -- three bytes
      by_cases hs1 : utf8.RuneStart h1 = true
      · simpa [utf8.scanBack, hs1] using hsp
      · by_cases hs2 : utf8.RuneStart h2 = true
        · simpa [utf8.scanBack, hs1, hs2] using hsp
        · exfalso
          have hc2 := not_RuneStart h2 (by simpa using hs2)
          rcases x with _ | ⟨q, x'⟩
          · simp [utf8.scanBack, hs1, hs2, utf8.DecodeRune_cont h2 _ hc2.1 hc2.2,
              IsSpace_RuneError] at hsp
          · have hq := hx q rfl
            simp [utf8.scanBack, hs1, hs2, RuneStart_ascii q hq, utf8.DecodeRune_ascii q _ hq,
              IsSpace_RuneError] at hsp
    · -- four bytes or more
      by_cases hs1 : utf8.RuneStart h1 = true
      · simpa [utf8.scanBack, hs1] using hsp
      · by_cases hs2 : utf8.RuneStart h2 = true
        · simpa [utf8.scanBack, hs1, hs2] using hsp
        · by_cases hs3 : utf8.RuneStart h3 = true
          · simpa [utf8.scanBack, hs1, hs2, hs3] using hsp
          · exfalso
            have hc3 := not_RuneStart h3 (by simpa using hs3)
            rcases hz : hr3 ++ x with _ | ⟨z, zs⟩
            · simp [utf8.scanBack, hs1, hs2, hs3, hz, utf8.DecodeRune_cont h3 _ hc3.1 hc3.2,
                IsSpace_RuneError] at hsp
            · rw [List.cons_append, List.cons_append, List.cons_append, hz] at hsp
              have hs1' : utf8.RuneStart h1 = false := by simpa using hs1
              have hs2' : utf8.RuneStart h2 = false := by simpa using hs2
              have hs3' : utf8.RuneStart h3 = false := by simpa using hs3
              simp only [utf8.scanBack, hs1', hs2', hs3', Bool.false_eq_true, if_false] at hsp
              split at hsp
              · exact absurd hsp (by simp [IsSpace_RuneError])
              · rename_i heq
                have h4 := utf8.DecodeRune_size_le
                  (b0 :: List.take (1 + (1 + (1 + 1))) (h1 :: h2 :: h3 :: z :: zs)).reverse
                simp only [ne_eq, not_not] at heq
                omega

namespace strings

/-- Whether `p ++ h` ends with white space is decided within `h`, when `h` is
not empty and `p` is empty or ends with an ASCII byte. -/
theorem endsWithSpace_append_ext (p a h : GoString) (hne : h ≠ [])
    (hp : ∀ q, p.getLast? = some q → q.val < 0x80)
    (hsp : endsWithSpace (p ++ h) = true) : endsWithSpace (a ++ h) = true := by
  obtain ⟨r, hr⟩ : ∃ r, h.reverse = r := ⟨_, rfl⟩
  have hh : h = r.reverse := by rw [← hr, List.reverse_reverse]
  subst hh
  cases r with
  | nil => simp at hne
  | cons b0 rest =>
    have e1 : ∀ u : GoString, u ++ (b0 :: rest).reverse = (b0 :: (rest ++ u.reverse)).reverse := by
      intro u
      simp
    rw [e1] at hsp ⊢
    refine endsWithSpace_rev_ext b0 rest p.reverse a.reverse ?_ hsp
    intro q hq
    apply hp q
    rw [← hq, List.head?_reverse]

theorem TrimLeftSpace_back (n : Nat) (s : GoString) : TrimLeftSpace n s <:+ s := by
  induction n generalizing s with
  | zero => exact List.suffix_refl _
  | succ n ih =>
    unfold TrimLeftSpace
    split
    · exact (ih _).trans (List.drop_suffix _ _)
    · exact List.suffix_refl _

theorem TrimRightSpace_front (n : Nat) (s : GoString) : TrimRightSpace n s <+: s := by
  induction n generalizing s with
  | zero => exact List.prefix_refl _
  | succ n ih =>
    unfold TrimRightSpace
    split
    · exact (ih _).trans (List.take_prefix _ _)
    · exact List.prefix_refl _

theorem TrimSpace_within (s : GoString) : TrimSpace s <:+: s :=
  (TrimRightSpace_front _ _).isInfix.trans (TrimLeftSpace_back _ _).isInfix

theorem endsWithSpace_nil : endsWithSpace [] = false := by decide

/-- After `TrimRightSpace` a string does not end with white space. -/
theorem TrimRightSpace_stable (n : Nat) (s : GoString) (h : s.length ≤ n) :
    endsWithSpace (TrimRightSpace n s) = false := by
  induction n generalizing s with
  | zero =>
    have hs : s = [] := List.length_eq_zero.mp (Nat.le_zero.mp h)
    subst hs
    exact endsWithSpace_nil
  | succ n ih =>
    unfold TrimRightSpace
    split
    · rename_i hc
      apply ih
      have := utf8.DecodeLast_size_pos s hc.1
      have hl : 0 < s.length := List.length_pos.mpr hc.1
      simp only [List.length_take]
      omega
    · rename_i hc
      by_cases hs : s = []
      · subst hs; exact endsWithSpace_nil
      · unfold endsWithSpace
        simpa [hs] using hc

theorem TrimSpace_not_endsWithSpace (s : GoString) : endsWithSpace (TrimSpace s) = false := by
  unfold TrimSpace
  apply TrimRightSpace_stable
  exact (TrimLeftSpace_back _ _).length_le

theorem TrimLeftSpace_id (n : Nat) (s : GoString) (h : beginsWithSpace s = false) :
    TrimLeftSpace n s = s := by
  cases n with
  | zero => rfl
  | succ n =>
    unfold TrimLeftSpace
    unfold beginsWithSpace at h
    simp [h]

theorem TrimRightSpace_id (n : Nat) (s : GoString) (h : endsWithSpace s = false) :
    TrimRightSpace n s = s := by
  cases n with
  | zero => rfl
  | succ n =>
    unfold TrimRightSpace
    unfold endsWithSpace at h
    simp [h]

/-- `TrimSpace` leaves a string that neither begins nor ends with white space. -/
theorem TrimSpace_id (s : GoString) (hb : beginsWithSpace s = false)
    (he : endsWithSpace s = false) : TrimSpace s = s := by
  unfold TrimSpace
  rw [TrimLeftSpace_id _ _ hb, TrimRightSpace_id _ _ he]

theorem beginsWithSpace_ascii (q : Byte) (t : GoString) (hq : q.val < 0x80)
    (hs : unicode.IsSpace q.val = false) : beginsWithSpace (q :: t) = false := by
  unfold beginsWithSpace
  rw [utf8.DecodeRune_ascii q t hq]
  exact hs

end strings

/-! ## Entries and hosts -/

theorem ascii_hash : ascii "#" = [35] := by decide

theorem not_mem_of_within (c : Byte) (x y : GoString) (h : x <:+: y) (hc : c ∉ y) : c ∉ x :=
  fun hx => hc (h.subset hx)

theorem entry_within (line : GoString) : entry line <:+: line := by
  unfold entry
  rw [ascii_hash]
  exact (strings.TrimSpace_within _).trans (strings.Split_head 35 line).1.isInfix

theorem entry_no_hash (line : GoString) : (35 : Byte) ∉ entry line := by
  unfold entry
  rw [ascii_hash]
  exact not_mem_of_within 35 _ _ (strings.TrimSpace_within _) (strings.Split_head 35 line).2

theorem entry_not_endsWithSpace (line : GoString) :
    strings.endsWithSpace (entry line) = false :=
  strings.TrimSpace_not_endsWithSpace _

/-- Every string appended to `hosts` for a line without newline is a parsed
host. -/
theorem processEntry_parsed (line h : GoString) (hl : (10 : Byte) ∉ line)
    (hp : processEntry line = some h) : ParsedHost h := by
  unfold processEntry at hp
  split at hp
  · simp at hp
  · simp only [Option.some.injEq] at hp
    subst hp
    have hsuf := host_suffix (entry line)
    refine ⟨not_mem_of_within 35 _ _ hsuf.isInfix (entry_no_hash line),
      not_mem_of_within 10 _ _ (hsuf.isInfix.trans (entry_within line)) hl, ?_⟩
    intro hne p hq
    obtain ⟨a, ha⟩ := hsuf
    cases hsp : strings.endsWithSpace (p ++ host (entry line)) with
    | false => rfl
    | true =>
      have := strings.endsWithSpace_append_ext p a _ hne hq hsp
      rw [ha, entry_not_endsWithSpace] at this
      exact absurd this (by simp)

theorem mem_hosts (raws : List GoString) (h : GoString) (hh : h ∈ hosts raws) :
    ∃ raw ∈ raws, ∃ line ∈ strings.Split raw (ascii "\n"), processEntry line = some h := by
  unfold hosts at hh
  rw [List.mem_flatMap] at hh
  obtain ⟨raw, hr, hh⟩ := hh
  unfold processHostFile at hh
  rw [List.mem_filterMap] at hh
  obtain ⟨line, hl, hp⟩ := hh
  exact ⟨raw, hr, line, hl, hp⟩

/-- Every string in `hosts` is a parsed host. -/
theorem hosts_parsed (raws : List GoString) (h : GoString) (hh : h ∈ hosts raws) :
    ParsedHost h := by
  obtain ⟨raw, _, line, hl, hp⟩ := mem_hosts raws h hh
  rw [ascii_nl] at hl
  exact processEntry_parsed line h (strings.not_mem_of_mem_Split 10 raw line hl) hp

/-! ## Reading back the managed block -/

/-- A written host line, without its newline, gives back its host. -/
theorem processEntry_line (addr h : GoString) (hh : ParsedHost h)
    (ha0 : ∃ q t, addr = q :: t ∧ q.val < 0x80 ∧ unicode.IsSpace q.val = false)
    (ha1 : ∀ b ∈ addr, unicode.IsSpace b.val = false) (ha2 : (35 : Byte) ∉ addr)
    (ha3 : strings.TrimSpace (addr ++ [32]) = addr) :
    processEntry (addr ++ ascii " " ++ h) = some h := by
  have hsp : ascii " " = [32] := by decide
  obtain ⟨q, t, hq, hq1, hq2⟩ := ha0
  have hne : addr ≠ [] := by rw [hq]; simp
  have hno : (35 : Byte) ∉ addr ++ [32] ++ h := by
    simp only [List.mem_append, not_or]
    exact ⟨⟨ha2, by decide⟩, hh.1⟩
  have hafter : ∀ r : GoString, afterFirstSpace (addr ++ 32 :: r) = some r := fun r =>
    afterFirstSpace_append addr r 32 (by decide) ha1
  have hnone : afterFirstSpace addr = none := by
    cases hc : afterFirstSpace addr with
    | none => rfl
    | some r =>
      obtain ⟨a, w, h1, h2, h3⟩ := afterFirstSpace_some addr r hc
      have := ha1 w (by rw [h1]; simp)
      rw [h2] at this
      exact absurd this (by simp)
  have hentry : entry (addr ++ ascii " " ++ h) = if h = [] then addr else addr ++ [32] ++ h := by
    unfold entry
    rw [ascii_hash, hsp, strings.Split_not_mem 35 _ hno]
    simp only [List.headD_cons]
    by_cases h0 : h = []
    · rw [if_pos h0, h0, List.append_nil, ha3]
    · rw [if_neg h0]
      apply strings.TrimSpace_id
      · rw [hq]
        exact strings.beginsWithSpace_ascii q _ hq1 hq2
      · apply hh.2.2 h0
        intro q' hq'
        simp at hq'
        rw [← hq']
        decide
  unfold processEntry
  rw [hentry]
  by_cases h0 : h = []
  · rw [if_pos h0, if_neg (by simpa using hne), host_eq, hnone, h0]
    rfl
  · rw [if_neg h0]
    rw [if_neg (by simp), host_eq, List.append_assoc, List.singleton_append, hafter]
    rfl

set_option maxRecDepth 100000 in
theorem processEntry_line4 (h : GoString) (hh : ParsedHost h) :
    processEntry (ascii "0.0.0.0" ++ ascii " " ++ h) = some h :=
  processEntry_line _ h hh ⟨48, (ascii "0.0.0.0").tail, by decide, by decide, by decide⟩
    (by decide) (by decide) (by decide)

set_option maxRecDepth 100000 in
theorem processEntry_line6 (h : GoString) (hh : ParsedHost h) :
    processEntry (ascii "::0" ++ ascii " " ++ h) = some h :=
  processEntry_line _ h hh ⟨58, (ascii "::0").tail, by decide, by decide, by decide⟩
    (by decide) (by decide) (by decide)

/-- The two lines written for each host, without their newlines. -/
theorem Split_managedLines (order : List GoString) (rest : GoString)
    (ho : ∀ h ∈ order, (10 : Byte) ∉ h) :
    strings.Split (managedLines order ++ rest) [10] =
      order.flatMap (fun h => [ascii "0.0.0.0" ++ ascii " " ++ h, ascii "::0" ++ ascii " " ++ h])
        ++ strings.Split rest [10] := by
  induction order with
  | nil => simp [managedLines]
  | cons h order ih =>
    have hh : (10 : Byte) ∉ h := ho h (List.mem_cons_self _ _)
    have h4 : (10 : Byte) ∉ ascii "0.0.0.0" ++ ascii " " ++ h := by
      simp only [List.mem_append, not_or]
      exact ⟨⟨by decide, by decide⟩, hh⟩
    have h6 : (10 : Byte) ∉ ascii "::0" ++ ascii " " ++ h := by
      simp only [List.mem_append, not_or]
      exact ⟨⟨by decide, by decide⟩, hh⟩
    have hform : managedLines (h :: order) ++ rest =
        (ascii "0.0.0.0" ++ ascii " " ++ h) ++ 10 ::
          ((ascii "::0" ++ ascii " " ++ h) ++ 10 :: (managedLines order ++ rest)) := by
      simp [managedLines, hostLines, ascii_nl]
    rw [hform, strings.Split_append_cons 10 _ _ h4, strings.Split_append_cons 10 _ _ h6,
      ih (fun k hk => ho k (List.mem_cons_of_mem _ hk))]
    simp

set_option maxRecDepth 100000 in
theorem Split_end : strings.Split endManagedHosts [10] = [endManagedHosts.take 44, []] := by
  decide

set_option maxRecDepth 100000 in
theorem start_no_nl : (10 : Byte) ∉ startManagedHosts.take 46 := by decide

set_option maxRecDepth 100000 in
theorem start_take : startManagedHosts = startManagedHosts.take 46 ++ [10] := by decide

set_option maxRecDepth 100000 in
theorem processEntry_start : processEntry (startManagedHosts.take 46) = none := by decide

set_option maxRecDepth 100000 in
theorem processEntry_end : processEntry (endManagedHosts.take 44) = none := by decide

theorem processEntry_nil : processEntry [] = none := by decide

/-- The strings appended to `hosts` when the managed block is read as a
downloaded file: every host twice, the marker lines nothing. -/
theorem hosts_managedBlock (order : List GoString) (ho : ∀ h ∈ order, ParsedHost h) :
    hosts [managedBlock order] = order.flatMap (fun h => [h, h]) := by
  have hsplit : strings.Split (managedBlock order) (ascii "\n") =
      startManagedHosts.take 46 ::
        (order.flatMap (fun h => [ascii "0.0.0.0" ++ ascii " " ++ h,
          ascii "::0" ++ ascii " " ++ h]) ++ [endManagedHosts.take 44, []]) := by
    have hform : managedBlock order =
        startManagedHosts.take 46 ++ 10 :: (managedLines order ++ endManagedHosts) := by
      unfold managedBlock
      conv_lhs => rw [start_take]
      simp
    rw [ascii_nl, hform, strings.Split_append_cons 10 _ _ start_no_nl,
      Split_managedLines order _ (fun h hh => (ho h hh).2.1), Split_end]
  unfold hosts processHostFile
  rw [List.flatMap_singleton, hsplit, List.filterMap_cons, processEntry_start,
    List.filterMap_append]
  simp only [List.filterMap_cons, processEntry_end, processEntry_nil, List.filterMap_nil,
    List.append_nil]
  clear hsplit
  induction order with
  | nil => rfl
  | cons h order ih =>
    have hh := ho h (List.mem_cons_self _ _)
    simp only [List.flatMap_cons, List.filterMap_append, List.filterMap_cons,
      processEntry_line4 h hh, processEntry_line6 h hh, List.filterMap_nil]
    rw [ih (fun k hk => ho k (List.mem_cons_of_mem _ hk))]

/-- Reading the managed block back gives the keys in the order in which they
were written. -/
theorem uniqueHosts_managedBlock (raws : List GoString) (order : List GoString)
    (ho : RangeOrder (uniqueHosts (hosts raws)) order) :
    uniqueHosts (hosts [managedBlock order]) = order := by
  have hmem : ∀ h ∈ order, h ∈ hosts raws ∧ h ∉ ignoreListInDownloadedFiles := fun h hh =>
    (mem_uniqueHosts _ h).mp ((List.Perm.mem_iff ho).mp hh)
  rw [hosts_managedBlock order (fun h hh => hosts_parsed raws h (hmem h hh).1)]
  exact uniqueHosts_dup order ((List.Perm.nodup_iff ho).mpr (uniqueHosts_nodup _))
    (fun h hh => (hmem h hh).2)

/-! ## The text written by `main`, read by the next run -/

theorem managedLines_no_hash (order : List GoString) (ho : ∀ h ∈ order, (35 : Byte) ∉ h) :
    (35 : Byte) ∉ managedLines order := by
  unfold managedLines
  intro hm
  rw [List.mem_flatten] at hm
  obtain ⟨l, hl, hm⟩ := hm
  rw [List.mem_map] at hl
  obtain ⟨h, hh, rfl⟩ := hl
  unfold hostLines at hm
  simp only [List.mem_append] at hm
  have h1 : (35 : Byte) ∉ ascii "0.0.0.0" := by decide
  have h2 : (35 : Byte) ∉ ascii " " := by decide
  have h3 : (35 : Byte) ∉ ascii "\n" := by decide
  have h4 : (35 : Byte) ∉ ascii "::0" := by decide
  have h5 := ho h hh
  tauto

theorem start_not_infix_end : ¬ startManagedHosts <:+: endManagedHosts := by
  intro h
  have := h.length_le
  rw [startManagedHosts_length, endManagedHosts_length] at this
  omega

/-- The text replaced at `main.go:197` does not occur in a text written by
`main` when the text before the block does not end with a newline. -/
theorem old_absent (p : GoString) (order : List GoString)
    (hp : ¬ startManagedHosts <:+: p ++ [10]) (hnl : ¬ [10] <:+ p)
    (ho : ∀ h ∈ order, (35 : Byte) ∉ h) :
    ¬ (ascii "\n\n" ++ startManagedHosts) <:+: newHostsFile p order := by
  rintro ⟨s, t, hst⟩
  have hst' : (s ++ [10, 10]) ++ (startManagedHosts ++ t)
      = (p ++ [10]) ++ (startManagedHosts ++ (managedLines order ++ endManagedHosts)) := by
    simpa [newHostsFile, ascii_nl, ascii_nlnl] using hst
  have hend : s ++ [10, 10] ≠ p ++ [10] := by
    intro h
    apply hnl
    have h2 : (s ++ [10]) ++ [10] = p ++ [10] := by simpa using h
    have h3 := List.append_inj_left' h2 rfl
    exact ⟨s, h3⟩
  rw [List.append_eq_append_iff] at hst'
  rcases hst' with ⟨a', h1, h2⟩ | ⟨c', h1, h2⟩
  · cases a' with
    | nil => exact hend (by simpa using h1.symm)
    | cons b a2 =>
      have hpre : startManagedHosts <+: (b :: a2) ++
          (startManagedHosts ++ (managedLines order ++ endManagedHosts)) := by
        rw [← h2]; exact List.prefix_append _ _
      have h3 := prefix_start_unique (b :: a2) _ (by simp) hpre
      apply hp
      rw [h1]
      exact h3.isInfix.trans ⟨s ++ [10, 10], [], by simp⟩
  · cases c' with
    | nil => exact hend (by simpa using h1)
    | cons b c2 =>
      have hb : b = 35 := by
        rw [startManagedHosts_eq] at h2
        simp at h2
        exact h2.1.symm
      have h3 : startManagedHosts.tail ++ (managedLines order ++ endManagedHosts)
          = c2 ++ (startManagedHosts ++ t) := by
        have h4 : startManagedHosts ++ (managedLines order ++ endManagedHosts) =
            35 :: (startManagedHosts.tail ++ (managedLines order ++ endManagedHosts)) := by
          conv_lhs => rw [startManagedHosts_eq]
          rfl
        rw [h4] at h2
        simp only [List.cons_append, List.cons.injEq] at h2
        exact h2.2
      have h5 : startManagedHosts <:+: (startManagedHosts.tail ++ managedLines order)
          ++ endManagedHosts := by
        rw [List.append_assoc, h3]
        exact ⟨c2, t, by simp⟩
      have h6 : (35 : Byte) ∉ startManagedHosts.tail ++ managedLines order := by
        simp only [List.mem_append, not_or]
        exact ⟨start_tail_no_hash, managedLines_no_hash order ho⟩
      have key := strings.infix_of_head_not_mem 35 startManagedHosts.tail _ endManagedHosts h6
      rw [← startManagedHosts_eq] at key
      exact start_not_infix_end (key h5)

/-- The removal of the managed block from a text written by `main` itself, for
a text before the block that does not end with a newline: the newline written
at `main.go:239` stays. -/
theorem stripManagedHosts_newHostsFile_nonl (p : GoString) (order : List GoString)
    (hp : ¬ startManagedHosts <:+: p ++ [10]) (hnl : ¬ [10] <:+ p)
    (ho : ∀ h ∈ order, (35 : Byte) ∉ h) :
    stripManagedHosts (newHostsFile p order) = .ok (p ++ [10]) := by
  have h := stripManagedHosts_of_replace (newHostsFile p order) (p ++ [10])
    (managedLines order) [] ⟨p ++ [10], managedLines order ++ endManagedHosts, by
      simp [newHostsFile, ascii_nl]⟩ ?_ hp (by decide)
  · simpa using h
  · rw [strings.Replace_none _ _ _ (old_absent p order hp hnl ho)]
    simp [newHostsFile, ascii_nl]

theorem perm_pair (a b : GoString) (order : List GoString) (h : order.Perm [a, b]) :
    order = [a, b] ∨ order = [b, a] := by
  have hl := h.length_eq
  match order, hl with
  | [x, y], _ =>
    have hx : x ∈ [a, b] := (List.Perm.mem_iff h).mp (by simp)
    have hy : y ∈ [a, b] := (List.Perm.mem_iff h).mp (by simp)
    have ha : a ∈ [x, y] := (List.Perm.mem_iff h).mpr (by simp)
    have hb : b ∈ [x, y] := (List.Perm.mem_iff h).mpr (by simp)
    simp only [List.mem_cons, List.mem_singleton, List.not_mem_nil, or_false] at hx hy ha hb
    by_cases hab : a = b
    · subst hab
      left
      rcases hx with rfl | rfl <;> rcases hy with rfl | rfl <;> rfl
    · rcases hx with rfl | rfl <;> rcases hy with rfl | rfl
      · exfalso; rcases hb with rfl | rfl <;> exact hab rfl
      · left; rfl
      · right; rfl
      · exfalso; rcases ha with rfl | rfl <;> exact hab rfl

/-- The host of an entry does not end with white space. -/
theorem host_not_endsWithSpace (line : GoString) :
    strings.endsWithSpace (host (entry line)) = false := by
  by_cases hne : host (entry line) = []
  · rw [hne]; exact strings.endsWithSpace_nil
  · obtain ⟨a, ha⟩ := host_suffix (entry line)
    cases hsp : strings.endsWithSpace (host (entry line)) with
    | false => rfl
    | true =>
      have := strings.endsWithSpace_append_ext [] a _ hne (by simp) (by simpa using hsp)
      rw [ha, entry_not_endsWithSpace] at this
      exact absurd this (by simp)

theorem fromFirstSpace_ascii (n : Nat) (addr r : GoString) (w : Byte)
    (hn : addr.length < n) (hw : unicode.IsSpace w.val = true) (hw' : w.val < 0x80)
    (ha : ∀ b ∈ addr, unicode.IsSpace b.val = false ∧ b.val < 0x80) :
    fromFirstSpace n (addr ++ w :: r) = w :: r := by
  induction addr generalizing n with
  | nil =>
    cases n with
    | zero => simp at hn
    | succ n =>
      simp [fromFirstSpace, utf8.DecodeRune_ascii w r hw', hw]
  | cons a addr ih =>
    cases n with
    | zero => simp at hn
    | succ n =>
      have h1 := ha a (List.mem_cons_self _ _)
      simp only [List.cons_append, fromFirstSpace, utf8.DecodeRune_ascii a _ h1.2, h1.1]
      simp only [List.cons_ne_nil, if_false, Bool.false_eq_true, List.drop_succ_cons,
        List.drop_zero]
      exact ih n (by simpa using hn) (fun b hb => ha b (List.mem_cons_of_mem _ hb))

theorem fromFirstSpace_ascii_none (n : Nat) (e : GoString) (hn : e.length ≤ n)
    (ha : ∀ b ∈ e, unicode.IsSpace b.val = false ∧ b.val < 0x80) :
    fromFirstSpace n e = [] := by
  induction e generalizing n with
  | nil => cases n <;> simp [fromFirstSpace]
  | cons a e ih =>
    cases n with
    | zero => simp at hn
    | succ n =>
      have h1 := ha a (List.mem_cons_self _ _)
      simp only [fromFirstSpace, utf8.DecodeRune_ascii a _ h1.2, h1.1]
      simp only [List.cons_ne_nil, if_false, Bool.false_eq_true, List.drop_succ_cons,
        List.drop_zero]
      exact ih n (by simpa using hn) (fun b hb => ha b (List.mem_cons_of_mem _ hb))

namespace strings

theorem beginsWithSpace_nil : beginsWithSpace [] = false := by decide

theorem TrimLeftSpace_ascii (n : Nat) (w : Byte) (t : GoString)
    (hw : unicode.IsSpace w.val = true) (hw' : w.val < 0x80) :
    TrimLeftSpace (n + 1) (w :: t) = TrimLeftSpace n t := by
  simp [TrimLeftSpace, utf8.DecodeRune_ascii w t hw', hw]

/-- After `TrimLeftSpace` a string does not begin with white space. -/
theorem TrimLeftSpace_stable (n : Nat) (s : GoString) (h : s.length ≤ n) :
    beginsWithSpace (TrimLeftSpace n s) = false := by
  induction n generalizing s with
  | zero =>
    have hs : s = [] := List.length_eq_zero.mp (Nat.le_zero.mp h)
    subst hs
    exact beginsWithSpace_nil
  | succ n ih =>
    unfold TrimLeftSpace
    split
    · rename_i hc
      apply ih
      have := utf8.DecodeRune_size_pos s hc.1
      have hl : 0 < s.length := List.length_pos.mpr hc.1
      simp only [List.length_drop]
      omega
    · rename_i hc
      by_cases hs : s = []
      · subst hs; exact beginsWithSpace_nil
      · unfold beginsWithSpace
        simpa [hs] using hc

end strings

/-- The host of an entry with its leading white space removed neither begins
nor ends with white space. -/
theorem TrimSpace_TrimLeftSpace_host (line : GoString) :
    strings.TrimSpace (strings.TrimLeftSpace (host (entry line)).length (host (entry line)))
      = strings.TrimLeftSpace (host (entry line)).length (host (entry line)) := by
  apply strings.TrimSpace_id
  · exact strings.TrimLeftSpace_stable _ _ (Nat.le_refl _)
  · by_cases hne : strings.TrimLeftSpace (host (entry line)).length (host (entry line)) = []
    · rw [hne]; exact strings.endsWithSpace_nil
    · obtain ⟨a, ha⟩ := strings.TrimLeftSpace_back (host (entry line)).length (host (entry line))
      cases hsp : strings.endsWithSpace
          (strings.TrimLeftSpace (host (entry line)).length (host (entry line))) with
      | false => rfl
      | true =>
        have := strings.endsWithSpace_append_ext [] a _ hne (by simp) (by simpa using hsp)
        rw [ha, host_not_endsWithSpace] at this
        exact absurd this (by simp)

namespace strings

theorem LastIndexOpt_occurs (s sub : GoString) (i : Nat) (h : LastIndexOpt s sub = some i) :
    sub <+: s.drop i := by
  induction s generalizing i with
  | nil =>
    simp only [LastIndexOpt] at h
    split at h
    · rename_i hp; simp at h; subst h; simpa using hp
    · simp at h
  | cons c t ih =>
    simp only [LastIndexOpt] at h
    cases hq : LastIndexOpt t sub with
    | some k =>
      simp only [hq, Option.some.injEq] at h
      subst h
      simpa using ih k hq
    | none =>
      simp only [hq] at h
      split at h
      · rename_i hp; simp at h; subst h; simpa using hp
      · simp at h

/-- The text after the `Replace` of `main.go:197` still contains `sub` when
`new` does. -/
theorem infix_Replace (s old new sub : GoString) (hs : sub <:+: s) (hn : sub <:+: new) :
    sub <:+: Replace s old new 1 := by
  rw [Replace_one]
  cases IndexOpt s old with
  | none => exact hs
  | some j =>
    exact hn.trans ⟨s.take j, s.drop (j + old.length), rfl⟩

end strings

/-- The removal of the managed block never stops the program: whatever the
text, neither `os.Exit` of `main.go:199-207` is reached and no slice
expression is out of range. -/
theorem stripManagedHosts_ok (text : GoString) : ∃ pre, stripManagedHosts text = .ok pre := by
  unfold stripManagedHosts
  by_cases hc : strings.Contains text startManagedHosts = true
  · simp only [hc, if_true]
    have hin := (strings.Contains_iff _ _).mp hc
    have hin1 := strings.infix_Replace text (ascii "\n\n" ++ startManagedHosts)
      (ascii "\n" ++ startManagedHosts) startManagedHosts hin (List.suffix_append _ _).isInfix
    generalize strings.Replace text (ascii "\n\n" ++ startManagedHosts)
      (ascii "\n" ++ startManagedHosts) 1 = t1 at hin1 ⊢
    obtain ⟨k, hk⟩ := strings.IndexOpt_isSome _ _ hin1
    have hkl := strings.IndexOpt_le _ _ _ hk
    have hlen : 47 ≤ t1.length := by
      have := hin1.length_le
      rw [startManagedHosts_length] at this
      exact this
    have hidx : strings.Index t1 startManagedHosts = (k : Int) := by
      unfold strings.Index; rw [hk]
    have hne : ¬ ((k : Int) = -1) := by omega
    simp only [hidx, hne, if_false]
    have h1 : slice t1 0 (k : Int) = some ((t1.take k).drop 0) := by
      unfold slice
      rw [if_pos ⟨le_refl _, by omega, by omega⟩]
      simp
    rw [h1]
    have h2 : ∃ after, slice t1 (strings.LastIndex t1 endManagedHosts + endManagedHosts.length)
        t1.length = some after := by
      unfold slice strings.LastIndex
      rw [endManagedHosts_length]
      cases hq : strings.LastIndexOpt t1 endManagedHosts with
      | none =>
        simp only
        rw [if_pos ⟨by omega, by omega, le_refl _⟩]
        exact ⟨_, rfl⟩
      | some i =>
        simp only
        have := (strings.LastIndexOpt_occurs _ _ _ hq).length_le
        rw [endManagedHosts_length, List.length_drop] at this
        rw [if_pos ⟨by omega, by omega, le_refl _⟩]
        exact ⟨_, rfl⟩
    obtain ⟨after, h2⟩ := h2
    rw [h2]
    exact ⟨_, rfl⟩
  · simp only [hc]
    exact ⟨_, rfl⟩

/-! ## Claims -/

/-- Claim C1, as amended: for every existing content `p` that contains no start
marker and ends with a newline, and every list `order` of host names, the
removal of the managed block from the text written by a first run gives back
exactly `p`, so that writing again with the same hosts in the same order gives
the same text byte for byte. -/
theorem idempotent_on_own_output (p : GoString) (order : List GoString)
    (hs : ¬ startManagedHosts <:+: p) (hnl : ascii "\n" <:+ p) :
    stripManagedHosts (newHostsFile p order) = .ok p ∧
      (stripManagedHosts (newHostsFile p order)).map (fun pre => newHostsFile pre order)
        = .ok (newHostsFile p order) := by
  obtain ⟨q, rfl⟩ := hnl
  rw [ascii_nl] at hs ⊢
  rw [stripManagedHosts_newHostsFile q order hs]
  exact ⟨rfl, rfl⟩

set_option maxRecDepth 100000 in
/-- Claim C1, witness: the content `"user content\n"` of the specification's
scenario with its two hosts. -/
theorem idempotent_on_own_output_witness :
    ¬ startManagedHosts <:+: ascii "user content\n" ∧ ascii "\n" <:+ ascii "user content\n" ∧
    stripManagedHosts (newHostsFile (ascii "user content\n")
        [ascii "ads.example.com", ascii "trk.example.com"]) = .ok (ascii "user content\n") :=
  ⟨by decide, by decide,
    (idempotent_on_own_output (ascii "user content\n")
      [ascii "ads.example.com", ascii "trk.example.com"] (by decide) (by decide)).1⟩

set_option maxRecDepth 100000 in
/-- Claim C1, counterexample: the content `"user content"`, which contains no
marker and does not end with a newline.  The removal of the managed block from
the first run's output gives `"user content\n"`, not `"user content"`, and the
second run's output differs from the first. -/
theorem idempotence_fails_without_final_newline :
    ¬ startManagedHosts <:+: ascii "user content" ∧
    ¬ endManagedHosts <:+: ascii "user content" ∧
    stripManagedHosts (newHostsFile (ascii "user content") [ascii "ads.example.com"])
      = .ok (ascii "user content\n") ∧
    stripManagedHosts (newHostsFile (ascii "user content") [ascii "ads.example.com"])
      ≠ .ok (ascii "user content") ∧
    newHostsFile (ascii "user content\n") [ascii "ads.example.com"]
      ≠ newHostsFile (ascii "user content") [ascii "ads.example.com"] := by
  have h : stripManagedHosts (newHostsFile (ascii "user content") [ascii "ads.example.com"])
      = .ok (ascii "user content\n") := by rfl
  refine ⟨by decide, by decide, h, ?_, by decide⟩
  rw [h]
  intro hc
  injection hc with hc
  revert hc
  decide

set_option maxRecDepth 100000 in
/-- Claim C2, the code at a failing input: a hosts file whose managed block
lost its end marker.  The text contains the start marker and no end marker;
`main` does not stop, and cuts the text from the start marker up to byte 44.
More generally, for no text with a start marker and without end marker does
the removal of the block stop the program. -/
theorem strip_without_end_marker :
    startManagedHosts <:+:
      ascii "127.0.0.1 localhost\n" ++ startManagedHosts ++ ascii "0.0.0.0 ads.example.com\n" ∧
    ¬ endManagedHosts <:+:
      ascii "127.0.0.1 localhost\n" ++ startManagedHosts ++ ascii "0.0.0.0 ads.example.com\n" ∧
    stripManagedHosts
      (ascii "127.0.0.1 localhost\n" ++ startManagedHosts ++ ascii "0.0.0.0 ads.example.com\n")
      = .ok (ascii "127.0.0.1 localhost\n. Managed hosts start.\n0.0.0.0 ads.example.com\n") ∧
    (∀ text, startManagedHosts <:+: text → ¬ endManagedHosts <:+: text →
      ∃ pre, stripManagedHosts text = .ok pre) := by
  refine ⟨by decide, by decide, by rfl, fun text _ _ => stripManagedHosts_ok text⟩

/-- Claim C3, as amended: for every text `a ++ start ++ b ++ end ++ c` in which
`a` contains no start marker and `c` contains neither the end marker nor the
start marker, the removal of the managed block gives `a' ++ c`, where `a'` is
`a` without its last newline when `a` ends with two newlines, and `a`
otherwise. -/
theorem strip_preserves_outside (a b c : GoString)
    (ha : ¬ startManagedHosts <:+: a) (hce : ¬ endManagedHosts <:+: c)
    (hcs : ¬ startManagedHosts <:+: c) :
    stripManagedHosts (a ++ startManagedHosts ++ b ++ endManagedHosts ++ c)
      = .ok ((if ascii "\n\n" <:+ a then a.dropLast else a) ++ c) :=
  stripManagedHosts_block a b c ha hce hcs

set_option maxRecDepth 100000 in
/-- Claim C3, witness: user text ending with a blank line before the block, one
host line in the block, user text after it. -/
theorem strip_preserves_outside_witness :
    ¬ startManagedHosts <:+: ascii "127.0.0.1 localhost\n\n" ∧
    ¬ endManagedHosts <:+: ascii "10.0.0.1 nas\n" ∧
    ¬ startManagedHosts <:+: ascii "10.0.0.1 nas\n" ∧
    stripManagedHosts (ascii "127.0.0.1 localhost\n\n" ++ startManagedHosts
        ++ ascii "0.0.0.0 ads.example.com\n" ++ endManagedHosts ++ ascii "10.0.0.1 nas\n")
      = .ok ((if ascii "\n\n" <:+ ascii "127.0.0.1 localhost\n\n"
          then (ascii "127.0.0.1 localhost\n\n").dropLast
          else ascii "127.0.0.1 localhost\n\n") ++ ascii "10.0.0.1 nas\n") :=
  ⟨by decide, by decide, by decide,
    strip_preserves_outside (ascii "127.0.0.1 localhost\n\n")
      (ascii "0.0.0.0 ads.example.com\n") (ascii "10.0.0.1 nas\n")
      (by decide) (by decide) (by decide)⟩

set_option maxRecDepth 100000 in
/-- Claim C3, counterexample: `a = "a\n"`, `b` empty and `c` a newline followed
by the start marker.  `a` contains no start marker and `c` no end marker, yet
the result is `"a\n"` followed by the start marker: the newline at the head of
`c` is lost, taken by the `Replace` of `main.go:197`. -/
theorem strip_drops_newline_after_block :
    ¬ startManagedHosts <:+: ascii "a\n" ∧
    ¬ endManagedHosts <:+: ascii "\n" ++ startManagedHosts ∧
    stripManagedHosts (ascii "a\n" ++ startManagedHosts ++ [] ++ endManagedHosts
        ++ (ascii "\n" ++ startManagedHosts))
      = .ok (ascii "a\n" ++ startManagedHosts) ∧
    stripManagedHosts (ascii "a\n" ++ startManagedHosts ++ [] ++ endManagedHosts
        ++ (ascii "\n" ++ startManagedHosts))
      ≠ .ok ((if ascii "\n\n" <:+ ascii "a\n" then (ascii "a\n").dropLast else ascii "a\n")
          ++ (ascii "\n" ++ startManagedHosts)) := by
  have h : stripManagedHosts (ascii "a\n" ++ startManagedHosts ++ [] ++ endManagedHosts
        ++ (ascii "\n" ++ startManagedHosts)) = .ok (ascii "a\n" ++ startManagedHosts) := by rfl
  refine ⟨by decide, by decide, h, ?_⟩
  rw [h]
  intro hc
  injection hc with hc
  revert hc
  decide

set_option maxRecDepth 100000 in
/-- Claim C5, the code at a failing input: the single downloaded text
`"example.com"`.  `main` prints "Error parsing entry" for the line and appends
the empty host all the same (`main.go:170-173`), so the empty string is a key
of `uniqueHosts` and two lines with an empty host are written. -/
theorem empty_host_is_kept :
    parseErrorPrinted (ascii "example.com") = true ∧
    hosts [ascii "example.com"] = [[]] ∧
    uniqueHosts (hosts [ascii "example.com"]) = [[]] ∧
    managedLines (uniqueHosts (hosts [ascii "example.com"])) = ascii "0.0.0.0 \n::0 \n" := by
  refine ⟨by decide, by decide, by decide, by decide⟩

set_option maxRecDepth 100000 in
/-- The runs of the scenario of the specification: existing content
`"user content\n"` and one downloaded text with two hosts. -/
theorem runs_scenario :
    (∀ out, Runs [ascii "0.0.0.0 ads.example.com\n0.0.0.0 trk.example.com # tracker\n"]
        (ascii "user content\n") out ↔
      out = ascii ("user content\n\n# DO NOT MODIFY MANUALLY. Managed hosts start.\n"
          ++ "0.0.0.0 ads.example.com\n::0 ads.example.com\n"
          ++ "0.0.0.0 trk.example.com\n::0 trk.example.com\n"
          ++ "# DO NOT MODIFY MANUALLY. Managed hosts end.\n") ∨
      out = ascii ("user content\n\n# DO NOT MODIFY MANUALLY. Managed hosts start.\n"
          ++ "0.0.0.0 trk.example.com\n::0 trk.example.com\n"
          ++ "0.0.0.0 ads.example.com\n::0 ads.example.com\n"
          ++ "# DO NOT MODIFY MANUALLY. Managed hosts end.\n")) := by
  intro out
  have hk : uniqueHosts (hosts
      [ascii "0.0.0.0 ads.example.com\n0.0.0.0 trk.example.com # tracker\n"])
        = [ascii "ads.example.com", ascii "trk.example.com"] := by decide
  have hs : stripManagedHosts (ascii "user content\n") = .ok (ascii "user content\n") := by rfl
  have h1 : newHostsFile (ascii "user content\n")
      [ascii "ads.example.com", ascii "trk.example.com"] =
      ascii ("user content\n\n# DO NOT MODIFY MANUALLY. Managed hosts start.\n"
          ++ "0.0.0.0 ads.example.com\n::0 ads.example.com\n"
          ++ "0.0.0.0 trk.example.com\n::0 trk.example.com\n"
          ++ "# DO NOT MODIFY MANUALLY. Managed hosts end.\n") := by decide
  have h2 : newHostsFile (ascii "user content\n")
      [ascii "trk.example.com", ascii "ads.example.com"] =
      ascii ("user content\n\n# DO NOT MODIFY MANUALLY. Managed hosts start.\n"
          ++ "0.0.0.0 trk.example.com\n::0 trk.example.com\n"
          ++ "0.0.0.0 ads.example.com\n::0 ads.example.com\n"
          ++ "# DO NOT MODIFY MANUALLY. Managed hosts end.\n") := by decide
  unfold Runs RangeOrder
  rw [hk, hs]
  constructor
  · rintro ⟨pre, order, hpre, hord, hout⟩
    injection hpre with hpre
    subst hpre
    rcases perm_pair _ _ order hord with rfl | rfl
    · left; rw [hout, h1]
    · right; rw [hout, h2]
  · rintro (h | h)
    · exact ⟨_, _, rfl, List.Perm.refl _, by rw [h, h1]⟩
    · exact ⟨_, _, rfl, List.Perm.swap _ _ _, by rw [h, h2]⟩

/-- Claim C6, as amended: the text written is the text before the block
followed by one newline, whatever its end, then the managed block.  For the
existing content `"user content\n"` and the single downloaded text of the
scenario, the outputs are exactly the two texts with a blank line between the
user content and the start marker, one for each order in which the map of the
two hosts is ranged. -/
theorem written_text_keeps_blank_line :
    (∀ pre order, newHostsFile pre order = pre ++ ascii "\n" ++ managedBlock order) ∧
    (∀ out, Runs [ascii "0.0.0.0 ads.example.com\n0.0.0.0 trk.example.com # tracker\n"]
        (ascii "user content\n") out ↔
      out = ascii ("user content\n\n# DO NOT MODIFY MANUALLY. Managed hosts start.\n"
          ++ "0.0.0.0 ads.example.com\n::0 ads.example.com\n"
          ++ "0.0.0.0 trk.example.com\n::0 trk.example.com\n"
          ++ "# DO NOT MODIFY MANUALLY. Managed hosts end.\n") ∨
      out = ascii ("user content\n\n# DO NOT MODIFY MANUALLY. Managed hosts start.\n"
          ++ "0.0.0.0 trk.example.com\n::0 trk.example.com\n"
          ++ "0.0.0.0 ads.example.com\n::0 ads.example.com\n"
          ++ "# DO NOT MODIFY MANUALLY. Managed hosts end.\n")) :=
  ⟨fun pre order => by simp [newHostsFile, managedBlock], runs_scenario⟩

set_option maxRecDepth 100000 in
/-- Claim C6, counterexample: in the scenario of the specification no run
writes the text the claim gives, which has no blank line between the user
content and the start marker. -/
theorem scenario_text_not_written :
    ¬ Runs [ascii "0.0.0.0 ads.example.com\n0.0.0.0 trk.example.com # tracker\n"]
        (ascii "user content\n")
        (ascii ("user content\n# DO NOT MODIFY MANUALLY. Managed hosts start.\n"
          ++ "0.0.0.0 ads.example.com\n::0 ads.example.com\n"
          ++ "0.0.0.0 trk.example.com\n::0 trk.example.com\n"
          ++ "# DO NOT MODIFY MANUALLY. Managed hosts end.\n")) := by
  intro h
  rcases (runs_scenario _).mp h with h | h <;> revert h <;> decide

set_option maxRecDepth 100000 in
/-- Claim C7, counterexample: the line `"0.0.0.0 \t trk.example.com"`.  The host
appended is `"\t trk.example.com"`, which begins with white space; the
reference rule gives `"trk.example.com"`.  Outside ASCII the two differ in
other ways too, as the loop tests single bytes: with U+3000 between address
and host the host is empty, and in `"à.example.com"` the second byte of `à`
counts as white space. -/
theorem host_keeps_leading_space :
    processEntry (ascii "0.0.0.0 \t trk.example.com") = some (ascii "\t trk.example.com") ∧
    hostReference (entry (ascii "0.0.0.0 \t trk.example.com")) = ascii "trk.example.com" ∧
    host (entry (ascii "0.0.0.0 \t trk.example.com"))
      ≠ hostReference (entry (ascii "0.0.0.0 \t trk.example.com")) ∧
    strings.beginsWithSpace (host (entry (ascii "0.0.0.0 \t trk.example.com"))) = true ∧
    host (entry (ascii "0.0.0.0" ++ [0xE3, 0x80, 0x80] ++ ascii "b.com")) = [] ∧
    hostReference (entry (ascii "0.0.0.0" ++ [0xE3, 0x80, 0x80] ++ ascii "b.com"))
      = ascii "b.com" ∧
    host (entry ([0xC3, 0xA0] ++ ascii ".example.com")) = ascii ".example.com" ∧
    hostReference (entry ([0xC3, 0xA0] ++ ascii ".example.com")) = [] := by
  refine ⟨by decide, by decide, by decide, by decide, by decide, by decide, by decide,
    by decide⟩

/-- Claim C7, as amended: for every line, with `e` the text before the first
`#`, trimmed: the host is everything after the first white-space byte of `e`,
not trimmed (and empty when `e` has no white-space byte), and it never ends
with white space.  When `e` is ASCII, the reference rule's host is the host
with its leading white space removed, so the two are equal when the host does
not begin with white space. -/
theorem host_after_first_space_byte (originalEntry : GoString) :
    ((∃ addr w, entry originalEntry = addr ++ w :: host (entry originalEntry) ∧
        unicode.IsSpace w.val = true ∧ ∀ b ∈ addr, unicode.IsSpace b.val = false) ∨
      ((∀ b ∈ entry originalEntry, unicode.IsSpace b.val = false) ∧
        host (entry originalEntry) = [])) ∧
    strings.endsWithSpace (host (entry originalEntry)) = false ∧
    ((∀ b ∈ entry originalEntry, b.val < 0x80) →
      hostReference (entry originalEntry) =
        strings.TrimLeftSpace (host (entry originalEntry)).length (host (entry originalEntry))) ∧
    ((∀ b ∈ entry originalEntry, b.val < 0x80) →
      strings.beginsWithSpace (host (entry originalEntry)) = false →
      hostReference (entry originalEntry) = host (entry originalEntry)) := by
  have hends := host_not_endsWithSpace originalEntry
  have htrim := TrimSpace_TrimLeftSpace_host originalEntry
  generalize entry originalEntry = e at hends htrim ⊢
  have hshape : (∃ addr w, e = addr ++ w :: host e ∧
        unicode.IsSpace w.val = true ∧ ∀ b ∈ addr, unicode.IsSpace b.val = false) ∨
      ((∀ b ∈ e, unicode.IsSpace b.val = false) ∧ host e = []) := by
    rw [host_eq]
    cases h : afterFirstSpace e with
    | none => exact Or.inr ⟨afterFirstSpace_none e h, rfl⟩
    | some r => exact Or.inl (afterFirstSpace_some e r h)
  have href : (∀ b ∈ e, b.val < 0x80) →
      hostReference e = strings.TrimLeftSpace (host e).length (host e) := by
    intro hascii
    unfold hostReference
    rcases hshape with ⟨addr, w, h1, h2, h3⟩ | ⟨h1, h2⟩
    · have hw : w.val < 0x80 := hascii w (by rw [h1]; simp)
      have hf : fromFirstSpace e.length e = w :: host e := by
        conv_lhs => rw [h1]
        apply fromFirstSpace_ascii _ addr _ w (by simp) h2 hw
        intro b hb
        exact ⟨h3 b hb, hascii b (by rw [h1]; simp [hb])⟩
      rw [hf, List.length_cons, strings.TrimLeftSpace_ascii _ w _ h2 hw, htrim]
    · rw [fromFirstSpace_ascii_none _ e (Nat.le_refl _) (fun b hb => ⟨h1 b hb, hascii b hb⟩), h2]
      rfl
  refine ⟨hshape, hends, href, ?_⟩
  intro hascii hbeg
  rw [href hascii, strings.TrimLeftSpace_id _ _ hbeg]

set_option maxRecDepth 100000 in
/-- Claim C7, witness: the second line of the scenario, where one space stands
between address and host; the entry is ASCII, the host does not begin with
white space and is the reference rule's host. -/
theorem host_after_first_space_byte_witness :
    host (entry (ascii "0.0.0.0 trk.example.com # tracker")) = ascii "trk.example.com" ∧
    hostReference (entry (ascii "0.0.0.0 trk.example.com # tracker"))
      = host (entry (ascii "0.0.0.0 trk.example.com # tracker")) :=
  ⟨by decide,
    (host_after_first_space_byte (ascii "0.0.0.0 trk.example.com # tracker")).2.2.2
      (by decide) (by decide)⟩

set_option maxRecDepth 100000 in
/-- Claim C8, counterexample: the two hosts of the scenario.  Both orders are
orders in which the map may be ranged, and they give different sequences of
lines; the second is not the lexicographic one. -/
theorem range_order_changes_lines :
    RangeOrder
      (uniqueHosts (hosts [ascii "0.0.0.0 ads.example.com\n0.0.0.0 trk.example.com # tracker\n"]))
      [ascii "ads.example.com", ascii "trk.example.com"] ∧
    RangeOrder
      (uniqueHosts (hosts [ascii "0.0.0.0 ads.example.com\n0.0.0.0 trk.example.com # tracker\n"]))
      [ascii "trk.example.com", ascii "ads.example.com"] ∧
    managedLines [ascii "ads.example.com", ascii "trk.example.com"]
      ≠ managedLines [ascii "trk.example.com", ascii "ads.example.com"] ∧
    managedLines [ascii "trk.example.com", ascii "ads.example.com"] =
      ascii ("0.0.0.0 trk.example.com\n::0 trk.example.com\n"
        ++ "0.0.0.0 ads.example.com\n::0 ads.example.com\n") := by
  have hk : uniqueHosts (hosts
      [ascii "0.0.0.0 ads.example.com\n0.0.0.0 trk.example.com # tracker\n"])
        = [ascii "ads.example.com", ascii "trk.example.com"] := by decide
  unfold RangeOrder
  rw [hk]
  exact ⟨List.Perm.refl _, List.Perm.swap _ _ _, by decide, by decide⟩

theorem mem_hosts_perm (raws raws' : List GoString) (hr : raws.Perm raws') (h : GoString) :
    h ∈ hosts raws ↔ h ∈ hosts raws' := by
  unfold hosts
  simp only [List.mem_flatMap]
  constructor
  · rintro ⟨r, h1, h2⟩; exact ⟨r, (List.Perm.mem_iff hr).mp h1, h2⟩
  · rintro ⟨r, h1, h2⟩; exact ⟨r, (List.Perm.mem_iff hr).mpr h1, h2⟩

/-- Claim C8, as amended: the lines between the markers are determined by the
set of hosts and by the order in which the map is ranged, which Go leaves
open.  In that order every host contributes its `0.0.0.0` line followed by its
`::0` line; two runs on the same downloaded texts, ranged in whatever orders,
write the same pairs of lines, up to the order of the pairs, and the same text
when the map is ranged in the same order. -/
theorem host_lines_up_to_range_order (raws raws' o1 o2 : List GoString)
    (hr : raws.Perm raws') (h1 : RangeOrder (uniqueHosts (hosts raws)) o1)
    (h2 : RangeOrder (uniqueHosts (hosts raws')) o2) :
    (o1.map hostLines).Perm (o2.map hostLines) ∧
    managedLines o1 = (o1.map hostLines).flatten ∧
    (∀ h, hostLines h = ascii "0.0.0.0 " ++ h ++ ascii "\n" ++ (ascii "::0 " ++ h ++ ascii "\n")) ∧
    (o1 = o2 → managedLines o1 = managedLines o2) := by
  have hk : (uniqueHosts (hosts raws)).Perm (uniqueHosts (hosts raws')) := by
    rw [List.perm_ext_iff_of_nodup (uniqueHosts_nodup _) (uniqueHosts_nodup _)]
    intro h
    rw [mem_uniqueHosts, mem_uniqueHosts, mem_hosts_perm raws raws' hr h]
  refine ⟨List.Perm.map _ ((h1.trans hk).trans h2.symm), rfl, ?_, fun h => by rw [h]⟩
  intro h
  have e4 : ascii "0.0.0.0 " = ascii "0.0.0.0" ++ ascii " " := by decide
  have e6 : ascii "::0 " = ascii "::0" ++ ascii " " := by decide
  rw [e4, e6]
  rfl

set_option maxRecDepth 100000 in
/-- Claim C8, witness: the downloaded text of the scenario, its two hosts
ranged in the two possible orders. -/
theorem host_lines_up_to_range_order_witness :
    RangeOrder
      (uniqueHosts (hosts [ascii "0.0.0.0 ads.example.com\n0.0.0.0 trk.example.com # tracker\n"]))
      [ascii "trk.example.com", ascii "ads.example.com"] ∧
    ([ascii "ads.example.com", ascii "trk.example.com"].map hostLines).Perm
      ([ascii "trk.example.com", ascii "ads.example.com"].map hostLines) := by
  have hk : uniqueHosts (hosts
      [ascii "0.0.0.0 ads.example.com\n0.0.0.0 trk.example.com # tracker\n"])
        = [ascii "ads.example.com", ascii "trk.example.com"] := by decide
  have h1 : RangeOrder (uniqueHosts (hosts
      [ascii "0.0.0.0 ads.example.com\n0.0.0.0 trk.example.com # tracker\n"]))
      [ascii "ads.example.com", ascii "trk.example.com"] := by
    unfold RangeOrder; rw [hk]
  have h2 : RangeOrder (uniqueHosts (hosts
      [ascii "0.0.0.0 ads.example.com\n0.0.0.0 trk.example.com # tracker\n"]))
      [ascii "trk.example.com", ascii "ads.example.com"] := by
    unfold RangeOrder; rw [hk]; exact List.Perm.swap _ _ _
  exact ⟨h2, (host_lines_up_to_range_order _ _ _ _ (List.Perm.refl _) h1 h2).1⟩

/-- Claim C9: for every set of hosts the loops of `main` can produce, ranged in
any order, reading the managed block back as a downloaded text gives exactly
that set (even in the order written): the lines of the block are the start
marker line, the two lines of every host and the end marker line; each host
line gives back the host it was written from and the marker lines give
nothing. -/
theorem managed_block_round_trip (rawHostFiles order : List GoString)
    (ho : RangeOrder (uniqueHosts (hosts rawHostFiles)) order) :
    uniqueHosts (hosts [managedBlock order]) = order ∧
    (uniqueHosts (hosts [managedBlock order])).Perm (uniqueHosts (hosts rawHostFiles)) ∧
    strings.Split (managedBlock order) (ascii "\n") =
      ascii "# DO NOT MODIFY MANUALLY. Managed hosts start." ::
        (order.flatMap (fun h => [ascii "0.0.0.0 " ++ h, ascii "::0 " ++ h])
          ++ [ascii "# DO NOT MODIFY MANUALLY. Managed hosts end.", []]) ∧
    (∀ h ∈ order, processEntry (ascii "0.0.0.0 " ++ h) = some h ∧
      processEntry (ascii "::0 " ++ h) = some h) ∧
    processEntry (ascii "# DO NOT MODIFY MANUALLY. Managed hosts start.") = none ∧
    processEntry (ascii "# DO NOT MODIFY MANUALLY. Managed hosts end.") = none := by
  have hmem : ∀ h ∈ order, ParsedHost h := fun h hh =>
    hosts_parsed rawHostFiles h ((mem_uniqueHosts _ h).mp ((List.Perm.mem_iff ho).mp hh)).1
  have hrt := uniqueHosts_managedBlock rawHostFiles order ho
  have e4 : ascii "0.0.0.0 " = ascii "0.0.0.0" ++ ascii " " := by decide
  have e6 : ascii "::0 " = ascii "::0" ++ ascii " " := by decide
  have es : ascii "# DO NOT MODIFY MANUALLY. Managed hosts start." = startManagedHosts.take 46 := by
    decide
  have ee : ascii "# DO NOT MODIFY MANUALLY. Managed hosts end." = endManagedHosts.take 44 := by
    decide
  refine ⟨hrt, ?_, ?_, ?_, ?_, ?_⟩
  · rw [hrt]; exact ho
  · have hform : managedBlock order =
        startManagedHosts.take 46 ++ 10 :: (managedLines order ++ endManagedHosts) := by
      unfold managedBlock
      conv_lhs => rw [start_take]
      simp
    rw [ascii_nl, hform, strings.Split_append_cons 10 _ _ start_no_nl,
      Split_managedLines order _ (fun h hh => (hmem h hh).2.1), Split_end, e4, e6, es, ee]
  · intro h hh
    rw [e4, e6]
    exact ⟨processEntry_line4 h (hmem h hh), processEntry_line6 h (hmem h hh)⟩
  · rw [es]; exact processEntry_start
  · rw [ee]; exact processEntry_end

set_option maxRecDepth 100000 in
/-- Claim C9, witness: the downloaded text of the scenario and one more line
with two spaces, whose host begins with a space; the map ranged in the order
opposite to the order of insertion. -/
theorem managed_block_round_trip_witness :
    RangeOrder
      (uniqueHosts (hosts [ascii "0.0.0.0 ads.example.com\n0.0.0.0  trk.example.com # tracker\n"]))
      [ascii " trk.example.com", ascii "ads.example.com"] ∧
    uniqueHosts (hosts [managedBlock [ascii " trk.example.com", ascii "ads.example.com"]])
      = [ascii " trk.example.com", ascii "ads.example.com"] := by
  have hk : uniqueHosts (hosts
      [ascii "0.0.0.0 ads.example.com\n0.0.0.0  trk.example.com # tracker\n"])
        = [ascii "ads.example.com", ascii " trk.example.com"] := by decide
  have h2 : RangeOrder (uniqueHosts (hosts
      [ascii "0.0.0.0 ads.example.com\n0.0.0.0  trk.example.com # tracker\n"]))
      [ascii " trk.example.com", ascii "ads.example.com"] := by
    unfold RangeOrder; rw [hk]; exact List.Perm.swap _ _ _
  exact ⟨h2, (managed_block_round_trip _ _ h2).1⟩

/-- Claim C10, as amended: every string appended to `hosts` contains neither
`#` nor a newline, so the lines written between the markers contain neither
marker; hence, in a text written by `main` whose text `p` before the block,
followed by the newline `main` writes after it, contains no start marker, the
first start marker and the last end marker found by the next run (after its
`Replace`) are the two marker lines written, and the block removed is exactly
the block written: what is left is `p`, with a final newline added when it had
none. -/
theorem safe_block_boundaries (rawHostFiles order : List GoString) (p : GoString)
    (ho : ∀ h ∈ order, h ∈ hosts rawHostFiles)
    (hp : ¬ startManagedHosts <:+: p ++ ascii "\n") :
    (∀ h ∈ hosts rawHostFiles, (35 : Byte) ∉ h ∧ (10 : Byte) ∉ h) ∧
    (¬ startManagedHosts <:+: managedLines order ∧ ¬ endManagedHosts <:+: managedLines order) ∧
    strings.Replace (newHostsFile p order) (ascii "\n\n" ++ startManagedHosts)
        (ascii "\n" ++ startManagedHosts) 1
      = (if ascii "\n" <:+ p then p else p ++ ascii "\n") ++ startManagedHosts
          ++ managedLines order ++ endManagedHosts ∧
    strings.Index (strings.Replace (newHostsFile p order) (ascii "\n\n" ++ startManagedHosts)
        (ascii "\n" ++ startManagedHosts) 1) startManagedHosts
      = ((if ascii "\n" <:+ p then p else p ++ ascii "\n").length : Int) ∧
    strings.LastIndex (strings.Replace (newHostsFile p order) (ascii "\n\n" ++ startManagedHosts)
        (ascii "\n" ++ startManagedHosts) 1) endManagedHosts
      = (((if ascii "\n" <:+ p then p else p ++ ascii "\n") ++ startManagedHosts
          ++ managedLines order).length : Int) ∧
    stripManagedHosts (newHostsFile p order)
      = .ok (if ascii "\n" <:+ p then p else p ++ ascii "\n") := by
  rw [ascii_nl] at hp ⊢
  have hparsed : ∀ h ∈ hosts rawHostFiles, (35 : Byte) ∉ h ∧ (10 : Byte) ∉ h := fun h hh =>
    ⟨(hosts_parsed rawHostFiles h hh).1, (hosts_parsed rawHostFiles h hh).2.1⟩
  have hno : (35 : Byte) ∉ managedLines order :=
    managedLines_no_hash order (fun h hh => (hparsed h (ho h hh)).1)
  have hls : ¬ startManagedHosts <:+: managedLines order := by
    intro h
    apply hno
    apply h.subset
    rw [startManagedHosts_eq]
    exact List.mem_cons_self _ _
  have hle : ¬ endManagedHosts <:+: managedLines order := by
    intro h
    apply hno
    apply h.subset
    rw [endManagedHosts_eq]
    exact List.mem_cons_self _ _
  -- the text after the `Replace`, in both cases
  have hrep : ∃ pre, pre = (if [10] <:+ p then p else p ++ [10]) ∧
      ¬ startManagedHosts <:+: pre ∧
      strings.Replace (newHostsFile p order) (ascii "\n\n" ++ startManagedHosts)
        (ascii "\n" ++ startManagedHosts) 1
      = pre ++ (startManagedHosts ++ (managedLines order ++ (endManagedHosts ++ []))) ∧
      stripManagedHosts (newHostsFile p order) = .ok pre := by
    by_cases hnl : [10] <:+ p
    · rw [if_pos hnl]
      obtain ⟨q, rfl⟩ := hnl
      have hq : ¬ startManagedHosts <:+: q ++ [10] := fun h =>
        hp (h.trans (List.prefix_append _ _).isInfix)
      refine ⟨_, rfl, hq, ?_, stripManagedHosts_newHostsFile q order hq⟩
      have hform : newHostsFile (q ++ [10]) order =
          q ++ ((ascii "\n\n" ++ startManagedHosts)
            ++ (managedLines order ++ (endManagedHosts ++ []))) := by
        simp [newHostsFile, ascii_nl, ascii_nlnl]
      rw [hform, strings.Replace_at _ _ _ _ (IndexOpt_old q _ (start_not_infix_concat q hq))]
      simp [ascii_nl]
    · rw [if_neg hnl]
      have h35 : ∀ h ∈ order, (35 : Byte) ∉ h := fun h hh => (hparsed h (ho h hh)).1
      refine ⟨_, rfl, hp, ?_, stripManagedHosts_newHostsFile_nonl p order hp hnl h35⟩
      rw [strings.Replace_none _ _ _ (old_absent p order hp hnl h35)]
      simp [newHostsFile, ascii_nl]
  obtain ⟨pre, hpre, hpS, htext, hstrip⟩ := hrep
  rw [ascii_nl] at htext
  rw [← hpre]
  refine ⟨hparsed, ⟨hls, hle⟩, ?_, ?_, ?_, hstrip⟩
  · rw [htext]; simp
  · rw [htext]
    unfold strings.Index
    rw [IndexOpt_start pre _ hpS]
  · rw [htext]
    unfold strings.LastIndex
    have := LastIndexOpt_end (pre ++ (startManagedHosts ++ managedLines order)) []
      (by decide)
    simp only [List.append_assoc] at this ⊢
    rw [this]

set_option maxRecDepth 100000 in
/-- Claim C10, witness: the scenario of the specification, with user content
that has no final newline. -/
theorem safe_block_boundaries_witness :
    (∀ h ∈ [ascii "ads.example.com", ascii "trk.example.com"],
      h ∈ hosts [ascii "0.0.0.0 ads.example.com\n0.0.0.0 trk.example.com # tracker\n"]) ∧
    ¬ startManagedHosts <:+: ascii "user content" ++ ascii "\n" ∧
    stripManagedHosts (newHostsFile (ascii "user content")
        [ascii "ads.example.com", ascii "trk.example.com"])
      = .ok (if ascii "\n" <:+ ascii "user content" then ascii "user content"
          else ascii "user content" ++ ascii "\n") :=
  ⟨by decide, by decide,
    (safe_block_boundaries
      [ascii "0.0.0.0 ads.example.com\n0.0.0.0 trk.example.com # tracker\n"]
      [ascii "ads.example.com", ascii "trk.example.com"] (ascii "user content")
      (by decide) (by decide)).2.2.2.2.2⟩

set_option maxRecDepth 100000 in
/-- Claim C10, counterexample: user content that is the start marker line
without its newline, and no host.  The content contains neither marker, yet in
the text written the first start marker stands at byte 0, not at byte 47 where
`main` wrote its marker, and the next run removes the user content with the
block. -/
theorem first_marker_not_the_written_one :
    ¬ startManagedHosts <:+: ascii "# DO NOT MODIFY MANUALLY. Managed hosts start." ∧
    ¬ endManagedHosts <:+: ascii "# DO NOT MODIFY MANUALLY. Managed hosts start." ∧
    newHostsFile (ascii "# DO NOT MODIFY MANUALLY. Managed hosts start.") []
      = (ascii "# DO NOT MODIFY MANUALLY. Managed hosts start." ++ ascii "\n")
        ++ startManagedHosts ++ endManagedHosts ∧
    strings.Index (strings.Replace
        (newHostsFile (ascii "# DO NOT MODIFY MANUALLY. Managed hosts start.") [])
        (ascii "\n\n" ++ startManagedHosts) (ascii "\n" ++ startManagedHosts) 1)
      startManagedHosts = 0 ∧
    (ascii "# DO NOT MODIFY MANUALLY. Managed hosts start." ++ ascii "\n").length = 47 ∧
    stripManagedHosts (newHostsFile (ascii "# DO NOT MODIFY MANUALLY. Managed hosts start.") [])
      = .ok [] := by
  refine ⟨by decide, by decide, by decide, by decide, by decide, by rfl⟩

end HostsManager
